import Mathlib

/-!
Verification of the `stream-ai/chunk` repository: a shallow embedding of the
chunk identity function (`pkg/util/idgen.go`), the data model
(`internal/model/chunk.go`, `internal/model/symbol.go`), the content-type
chunkers (`internal/chunker/{go,shell,dockerfile,fallback}.go` and the
generic chunker), and the relationship engine
(`SymbolTable.FindRelatedChunks`), together with theorems settling the
frozen claims about the specification.

Conventions of the embedding:
* Go strings are Lean `String`s; byte offsets into file contents are
  modelled as character offsets (all inputs considered here are ASCII,
  where the two coincide).
* Go `map[string][]T` tables are association lists `List (String × List T)`;
  a lookup of a missing key yields `[]`, matching Go's zero value.  Go map
  iteration order is unspecified: wherever the source iterates a map and
  the iteration order is observable, the embedding is parameterised by the
  order (see `AdmissibleDedup` and `FindRelatedChunksOut`).
* Go `int` values appearing here (line numbers, sizes, relation strengths)
  are never negative in the source, and are modelled as `Nat`.
* Fallible operations return `Except`.
-/

/-! ### Byte-level helpers and SHA-256 (`crypto/sha256`), used by
`pkg/util/idgen.go`.  `sha256hex` is the composition
`hex.EncodeToString (hasher.Sum nil)` of the Go source; writing each input
to the hasher in turn hashes the concatenation of the inputs. -/

def rotr32 (x n : Nat) : Nat :=
  ((x >>> n) ||| (x <<< (32 - n))) % 4294967296

def shr32 (x n : Nat) : Nat :=
  x >>> n

def add32 (x y : Nat) : Nat :=
  (x + y) % 4294967296

def xor32 (x y : Nat) : Nat :=
  x ^^^ y

def sha256K : List Nat :=
  [1116352408, 1899447441, 3049323471, 3921009573,
   961987163, 1508970993, 2453635748, 2870763221,
   3624381080, 310598401, 607225278, 1426881987,
   1925078388, 2162078206, 2614888103, 3248222580,
   3835390401, 4022224774, 264347078, 604807628,
   770255983, 1249150122, 1555081692, 1996064986,
   2554220882, 2821834349, 2952996808, 3210313671,
   3336571891, 3584528711, 113926993, 338241895,
   666307205, 773529912, 1294757372, 1396182291,
   1695183700, 1986661051, 2177026350, 2456956037,
   2730485921, 2820302411, 3259730800, 3345764771,
   3516065817, 3600352804, 4094571909, 275423344,
   430227734, 506948616, 659060556, 883997877,
   958139571, 1322822218, 1537002063, 1747873779,
   1955562222, 2024104815, 2227730452, 2361852424,
   2428436474, 2756734187, 3204031479, 3329325298]

def sha256H0 : List Nat :=
  [1779033703, 3144134277, 1013904242, 2773480762,
   1359893119, 2600822924, 528734635, 1541459225]

/-- Big-endian byte expansion of `n` into `k` bytes. -/
def bytesBE : Nat → Nat → List Nat
  | 0, _ => []
  | k + 1, n => bytesBE k (n / 256) ++ [n % 256]

/-- SHA-256 message padding: append `0x80`, zero bytes, and the 64-bit
big-endian bit length, reaching a multiple of 64 bytes. -/
def sha256pad (msg : List Nat) : List Nat :=
  let zeros := (64 - (msg.length + 9) % 64) % 64
  msg ++ [0x80] ++ List.replicate zeros 0 ++ bytesBE 8 (msg.length * 8)

/-- Combine four bytes (big-endian) into a 32-bit word. -/
def word32OfBytes : List Nat → Nat
  | [a, b, c, d] => ((a * 256 + b) * 256 + c) * 256 + d
  | _ => 0

/-- Split a list into consecutive groups of `k + 1` elements. -/
def listChunks (k : Nat) : List Nat → List (List Nat)
  | [] => []
  | x :: xs => (x :: xs.take k) :: listChunks k (xs.drop k)
  termination_by l => l.length
  decreasing_by
    simp only [List.length_cons, List.length_drop]
    omega

def smallSigma0 (x : Nat) : Nat :=
  xor32 (xor32 (rotr32 x 7) (rotr32 x 18)) (shr32 x 3)

def smallSigma1 (x : Nat) : Nat :=
  xor32 (xor32 (rotr32 x 17) (rotr32 x 19)) (shr32 x 10)

def bigSigma0 (x : Nat) : Nat :=
  xor32 (xor32 (rotr32 x 2) (rotr32 x 13)) (rotr32 x 22)

def bigSigma1 (x : Nat) : Nat :=
  xor32 (xor32 (rotr32 x 6) (rotr32 x 11)) (rotr32 x 25)

/-- Extend the 16 message words to 64 schedule words. -/
def sha256schedule (fuel : Nat) (w : List Nat) : List Nat :=
  match fuel with
  | 0 => w
  | fuel + 1 =>
    let i := w.length
    let nw := add32 (add32 (smallSigma1 (w.getD (i - 2) 0)) (w.getD (i - 7) 0))
      (add32 (smallSigma0 (w.getD (i - 15) 0)) (w.getD (i - 16) 0))
    sha256schedule fuel (w ++ [nw])

/-- One round of the SHA-256 compression function. -/
def sha256round (st : List Nat) (kw : Nat × Nat) : List Nat :=
  match st with
  | [a, b, c, d, e, f, g, h] =>
    let t1 := add32 (add32 h (bigSigma1 e))
      (add32 ((e &&& f) ^^^ ((4294967295 - e) &&& g)) (add32 kw.1 kw.2))
    let t2 := add32 (bigSigma0 a) ((a &&& b) ^^^ (a &&& c) ^^^ (b &&& c))
    [add32 t1 t2, a, b, c, add32 d t1, e, f, g]
  | other => other

/-- Process one 64-byte block, updating the eight-word state. -/
def sha256block (h : List Nat) (block : List Nat) : List Nat :=
  let w16 := (listChunks 3 block).map word32OfBytes
  let w := sha256schedule 48 w16
  let st := (sha256K.zip w).foldl sha256round h
  (h.zip st).map fun p => add32 p.1 p.2

def hexDigit (n : Nat) : Char :=
  if n < 10 then Char.ofNat (48 + n) else Char.ofNat (87 + n)

def byteToHex (b : Nat) : List Char :=
  [hexDigit (b / 16), hexDigit (b % 16)]

/-- Hex encoding of the SHA-256 digest of a byte sequence
(`hex.EncodeToString (sha256 bytes)`). -/
def sha256hex (msg : List Nat) : String :=
  let blocks := listChunks 63 (sha256pad msg)
  let final := blocks.foldl sha256block sha256H0
  String.mk ((final.map (bytesBE 4)).flatten.map byteToHex).flatten

/-- UTF-8 bytes of a string, as `Nat`s. -/
def strBytes (s : String) : List Nat :=
  s.toUTF8.toList.map UInt8.toNat

/-- `util.GenerateID` (pkg/util/idgen.go): writes each input string to one
SHA-256 hasher and hex-encodes the digest; writing the inputs in sequence
hashes their concatenation. -/
def GenerateID (inputs : List String) : String :=
  sha256hex (strBytes (inputs.foldl (· ++ ·) ""))

/-- `util.EstimateTokenCount` (pkg/util/idgen.go): `len(content) / 4`. -/
def EstimateTokenCount (content : String) : Nat :=
  (strBytes content).length / 4

/-! ### Data model (`internal/model`) -/

/-- `model.SymbolDefinition` (internal/model/symbol.go).  The Go field
`Type` is spelled `type'` here (`Type` is reserved in Lean). -/
structure SymbolDefinition where
  Name : String
  ChunkID : String
  FilePath : String
  StartLine : Nat
  EndLine : Nat
  type' : String
  deriving DecidableEq, Repr

/-- `model.SymbolReference` (internal/model/symbol.go). -/
structure SymbolReference where
  Name : String
  ChunkID : String
  FilePath : String
  Line : Nat
  deriving DecidableEq, Repr

/-- `model.Chunk` (internal/model/chunk.go). -/
structure Chunk where
  ID : String
  FilePath : String
  StartLine : Nat
  EndLine : Nat
  Content : String
  Language : String
  Framework : String := ""
  Symbols : List String := []
  Imports : List String := []
  RelatedChunks : List String := []
  TokenCount : Nat := 0
  deriving DecidableEq, Repr

/-- `model.SymbolTable` (internal/model/symbol.go).  The Go maps are
association lists; `Chunks` keeps the values of the Go `map[string]Chunk`
in one (run-specific) iteration order. -/
structure SymbolTable where
  Definitions : List (String × List SymbolDefinition)
  References : List (String × List SymbolReference)
  Chunks : List Chunk
  deriving DecidableEq, Repr

def NewSymbolTable : SymbolTable :=
  ⟨[], [], []⟩

/-- Lookup in an association-list map (first matching entry); a missing
key yields `[]` (Go's zero value for a slice). -/
def mapLookup (m : List (String × List α)) (name : String) : List α :=
  match m with
  | [] => []
  | (k, vs) :: rest => if k == name then vs else mapLookup rest name

/-- Append `v` to the entry of `name`, creating the entry if missing
(Go's `m[name] = append(m[name], v)`). -/
def mapAppend (m : List (String × List α)) (name : String) (v : α) :
    List (String × List α) :=
  match m with
  | [] => [(name, [v])]
  | (k, vs) :: rest =>
    if k == name then (k, vs ++ [v]) :: rest
    else (k, vs) :: mapAppend rest name v

/-- `SymbolTable.AddDefinition`. -/
def SymbolTable.AddDefinition (st : SymbolTable) (name : String)
    (def' : SymbolDefinition) : SymbolTable :=
  { st with Definitions := mapAppend st.Definitions name def' }

/-- `SymbolTable.AddReference`. -/
def SymbolTable.AddReference (st : SymbolTable) (name : String)
    (ref : SymbolReference) : SymbolTable :=
  { st with References := mapAppend st.References name ref }

/-- `SymbolTable.AllChunks` (the values of the chunk map, in the table's
iteration order). -/
def SymbolTable.AllChunks (st : SymbolTable) : List Chunk :=
  st.Chunks

/-- `chunker.ChunkingOptions` (internal/chunker/chunker.go). -/
structure ChunkingOptions where
  MinChunkSize : Nat
  MaxChunkSize : Nat
  deriving DecidableEq, Repr

/-! ### First claim-level facts about `GenerateID` -/

/-- C1 (counterexample): `GenerateID` hashes the unseparated concatenation
of its inputs, so the distinct pairs `("ab", "c")` and `("a", "bc")`
receive the same ID: the ID does not change although (path, text)
changed. -/
theorem GenerateID_not_injective :
    GenerateID ["ab", "c"] = GenerateID ["a", "bc"] ∧
      ("ab", "c") ≠ ("a", "bc") := by
  constructor
  · show sha256hex (strBytes (("" ++ "ab") ++ "c")) =
      sha256hex (strBytes (("" ++ "a") ++ "bc"))
    have h : (("" ++ "ab") ++ "c") = (("" ++ "a") ++ "bc") := by decide
    rw [h]
  · decide

/-- C1 (amended): the chunk ID is deterministic, and depends only on the
concatenation of the hashed inputs: whenever two input lists concatenate
to the same string — in particular whenever (path, text) is unchanged —
the produced IDs are equal. -/
theorem GenerateID_deterministic (xs ys : List String)
    (h : xs.foldl (· ++ ·) "" = ys.foldl (· ++ ·) "") :
    GenerateID xs = GenerateID ys := by
  unfold GenerateID
  rw [h]

/-- Witness for `GenerateID_deterministic` at a concrete input. -/
theorem GenerateID_deterministic_witness :
    GenerateID ["a/b.go", "text"] = GenerateID ["a/b.gotext"] :=
  GenerateID_deterministic ["a/b.go", "text"] ["a/b.gotext"] (by decide)

/-! ### Character-list string primitives

The Lean core `String` functions built on `String.Pos` (`splitOn`, `trim`,
`startsWith`, `toUpper`, …) do not reduce inside the kernel, so the string
operations the chunkers need are defined here over `String.data`
directly, with the semantics of the corresponding Go functions. -/

/-- Whether the first list is a leading segment of the second
(`strings.HasPrefix` on character lists). -/
def leadsWith : List Char → List Char → Bool
  | [], _ => true
  | _ :: _, [] => false
  | a :: as, b :: bs => a == b && leadsWith as bs

/-- Whether `sub` occurs contiguously inside `cs`. -/
def containsChars (cs sub : List Char) : Bool :=
  match cs with
  | [] => leadsWith sub []
  | _ :: rest => leadsWith sub cs || containsChars rest sub

/-- `strings.Contains`. -/
def containsSub (s sub : String) : Bool :=
  containsChars s.data sub.data

/-- `strings.Split` / `bytes.Split` for a one-character separator. -/
def strSplitOnChar (sep : Char) : List Char → List (List Char)
  | [] => [[]]
  | c :: rest =>
    match strSplitOnChar sep rest with
    | [] => [[]]
    | h :: t => if c == sep then [] :: h :: t else (c :: h) :: t

/-- `strings.Split s sep` for a one-character `sep`, as strings. -/
def splitStr (s : String) (sep : Char) : List String :=
  (strSplitOnChar sep s.data).map String.mk

/-- The line list `bytes.Split(content, []byte("\n"))` /
`strings.Split(string(content), "\n")`. -/
def linesOf (content : String) : List String :=
  splitStr content '\n'

/-- The white-space class of `strings.TrimSpace` (ASCII part of
`unicode.IsSpace`). -/
def isCutSpace (c : Char) : Bool :=
  c = ' ' || c = '\t' || c = '\n' || c = '\x0b' || c = '\x0c' || c = '\r'

/-- `strings.TrimSpace`. -/
def trimStr (s : String) : String :=
  String.mk (((s.data.dropWhile isCutSpace).reverse.dropWhile
    isCutSpace).reverse)

/-- `strings.HasPrefix`. -/
def strStartsWith (s pre : String) : Bool :=
  leadsWith pre.data s.data

/-- `strings.HasSuffix`. -/
def strEndsWith (s suf : String) : Bool :=
  leadsWith suf.data.reverse s.data.reverse

/-- `strings.ToUpper` (ASCII). -/
def strToUpper (s : String) : String :=
  String.mk (s.data.map Char.toUpper)

/-! ### Regular-expression matchers used by the chunkers

Go's `regexp` (RE2) has leftmost-first semantics.  Every pattern used in
the repository alternates only between disjoint character classes
(`\w`, `\s`, literals), so maximal-munch matching per position is exact.
`FindAllStringSubmatch` scans left to right and continues after the end of
each match; the scanners below do the same, with fuel bounded by the
input length (every match consumes at least one character). -/

/-- RE2 `\w` = `[0-9A-Za-z_]`. -/
def isWordChar (c : Char) : Bool :=
  c.isAlphanum || c = '_'

/-- RE2 `\s` = `[\t\n\f\r ]`. -/
def isSpaceChar (c : Char) : Bool :=
  c = ' ' || c = '\t' || c = '\n' || c = '\x0c' || c = '\r'

/-- Match a literal character sequence, returning the rest. -/
def matchLit : List Char → List Char → Option (List Char)
  | [], cs => some cs
  | _ :: _, [] => none
  | l :: ls, c :: cs => if c = l then matchLit ls cs else none

/-- Match one-or-more characters of a class (`p+`), returning the munched
run and the rest. -/
def matchPlus (p : Char → Bool) (cs : List Char) :
    Option (List Char × List Char) :=
  let run := cs.takeWhile p
  if run.isEmpty then none else some (run, cs.dropWhile p)

/-- Match zero-or-more characters of a class (`p*`). -/
def matchStar (p : Char → Bool) (cs : List Char) : List Char :=
  cs.dropWhile p

/-- Matcher for `function\s+(\w+)\s*\(\s*\)` at the current position. -/
def matchFuncParen (cs : List Char) : Option (String × List Char) := do
  let cs ← matchLit "function".data cs
  let (_, cs) ← matchPlus isSpaceChar cs
  let (w, cs) ← matchPlus isWordChar cs
  let cs := matchStar isSpaceChar cs
  let cs ← matchLit ['('] cs
  let cs := matchStar isSpaceChar cs
  let cs ← matchLit [')'] cs
  some (String.mk w, cs)

/-- Matcher for `function\s+(\w+)\s*\{` at the current position. -/
def matchFuncBrace (cs : List Char) : Option (String × List Char) := do
  let cs ← matchLit "function".data cs
  let (_, cs) ← matchPlus isSpaceChar cs
  let (w, cs) ← matchPlus isWordChar cs
  let cs := matchStar isSpaceChar cs
  let cs ← matchLit ['{'] cs
  some (String.mk w, cs)

/-- Matcher for `\w+\s*\(\s*\)\s*\{` at the current position (the `\b` of
`\b(\w+)\s*\(\s*\)\s*\{` is enforced by the scanner). -/
def matchNameParenBrace (cs : List Char) : Option (String × List Char) := do
  let (w, cs) ← matchPlus isWordChar cs
  let cs := matchStar isSpaceChar cs
  let cs ← matchLit ['('] cs
  let cs := matchStar isSpaceChar cs
  let cs ← matchLit [')'] cs
  let cs := matchStar isSpaceChar cs
  let cs ← matchLit ['{'] cs
  some (String.mk w, cs)

/-- `FindAllStringSubmatch` scanner for a matcher without a leading word
boundary: try each position left to right, continue after each match. -/
def scanAll (m : List Char → Option (String × List Char)) :
    Nat → List Char → List String
  | 0, _ => []
  | _ + 1, [] => []
  | fuel + 1, c :: cs =>
    match m (c :: cs) with
    | some (w, rest) => w :: scanAll m fuel rest
    | none => scanAll m fuel cs

/-- Scanner enforcing a leading `\b`: a match may start only where the
previous character is not a word character; every match of
`\b(\w+)\s*\(\s*\)\s*\{` ends in `{`, so after a match the boundary state
resets to false. -/
def scanAllBoundary (m : List Char → Option (String × List Char)) :
    Nat → Bool → List Char → List String
  | 0, _, _ => []
  | _ + 1, _, [] => []
  | fuel + 1, prevWord, c :: cs =>
    if prevWord then scanAllBoundary m fuel (isWordChar c) cs
    else
      match m (c :: cs) with
      | some (w, rest) => w :: scanAllBoundary m fuel false rest
      | none => scanAllBoundary m fuel (isWordChar c) cs

/-! ### Shell chunker (`internal/chunker/shell.go`) -/

/-- `isFunctionStart` (internal/chunker/shell.go): `function ` prefix with
`()` or trailing `{`, else the anchored pattern `^\s*\w+\s*\(\s*\)\s*\{`. -/
def isFunctionStart (line : String) : Bool :=
  if strStartsWith line "function " &&
      (containsSub line "()" || strEndsWith line "\x7b") then
    true
  else
    (matchNameParenBrace (matchStar isSpaceChar line.data)).isSome

/-- The three pattern scans of `ShellChunker.extractFunctions`, in source
order, before deduplication. -/
def extractFunctionsRaw (content : String) : List String :=
  let cs := content.data
  scanAll matchFuncParen (cs.length + 1) cs ++
    scanAll matchFuncBrace (cs.length + 1) cs ++
    scanAllBoundary matchNameParenBrace (cs.length + 1) false cs

/-- A deduplication order: Go deduplicates via a `map[string]bool` and
collects the keys in unspecified iteration order; any duplicate-free list
with the same membership is a possible outcome. -/
def AdmissibleDedup (d : List String → List String) : Prop :=
  ∀ l, (d l).Nodup ∧ ∀ x, x ∈ d l ↔ x ∈ l

/-- `ShellChunker.extractFunctions`, parameterised by the map iteration
order `d` used for deduplication. -/
def extractFunctions (d : List String → List String) (content : String) :
    List String :=
  d (extractFunctionsRaw content)

/-- `ShellChunker.createChunk`. -/
def shellCreateChunk (d : List String → List String) (filePath : String)
    (lines : List String) (startLine endLine : Nat) (st : SymbolTable) :
    Chunk × SymbolTable :=
  let content := String.intercalate "\n" lines
  let chunkID := GenerateID [filePath, content]
  let symbols := extractFunctions d content
  let chunk : Chunk :=
    { ID := chunkID, FilePath := filePath, StartLine := startLine,
      EndLine := endLine, Content := content, Language := "shell",
      Symbols := symbols, TokenCount := EstimateTokenCount content }
  let st := symbols.foldl
    (fun acc symbol =>
      acc.AddDefinition symbol
        ⟨symbol, chunkID, filePath, startLine, endLine, "function"⟩) st
  (chunk, st)

/-- The per-line loop of `ShellChunker.Chunk`.  `i` is the 0-based index of
the current line (equivalently the number of lines already consumed); at
the end of the input `i` equals `len(lines)`, which the source uses for
the final flush. -/
def shellChunkLoop (d : List String → List String)
    (options : ChunkingOptions) (filePath : String) :
    List String → Nat → List String → Nat → Bool → SymbolTable →
    List Chunk × SymbolTable
  | [], i, pending, startLine, _, st =>
    if pending.length > 0 then
      let (c, st') := shellCreateChunk d filePath pending startLine i st
      ([c], st')
    else ([], st)
  | line :: rest, i, pending, startLine, inFunction, st =>
    let trimmedLine := trimStr line
    let flushStart :=
      isFunctionStart trimmedLine && !inFunction && pending.length > 0
    let (chunks1, st1) :=
      if flushStart then
        let (c, st') := shellCreateChunk d filePath pending startLine i st
        ([c], st')
      else ([], st)
    let pending1 := if isFunctionStart trimmedLine && !inFunction then []
      else pending
    let startLine1 := if isFunctionStart trimmedLine && !inFunction then i + 1
      else startLine
    let inFunction1 := if isFunctionStart trimmedLine && !inFunction then true
      else inFunction
    if inFunction1 &&
        (trimmedLine == "\x7d" || strStartsWith trimmedLine "\x7d #") then
      let (c, st2) :=
        shellCreateChunk d filePath (pending1 ++ [line]) startLine1 (i + 1) st1
      let (cs, st3) :=
        shellChunkLoop d options filePath rest (i + 1) [] (i + 2) false st2
      (chunks1 ++ c :: cs, st3)
    else
      let pending2 := pending1 ++ [line]
      if !inFunction1 && pending2.length ≥ options.MaxChunkSize then
        let (c, st2) :=
          shellCreateChunk d filePath pending2 startLine1 (i + 1) st1
        let (cs, st3) :=
          shellChunkLoop d options filePath rest (i + 1) [] (i + 2)
            inFunction1 st2
        (chunks1 ++ c :: cs, st3)
      else
        let (cs, st2) :=
          shellChunkLoop d options filePath rest (i + 1) pending2 startLine1
            inFunction1 st1
        (chunks1 ++ cs, st2)

/-- `ShellChunker.Chunk` (internal/chunker/shell.go), parameterised by the
deduplication order `d`. -/
def shellChunk (d : List String → List String) (filePath : String)
    (content : String) (st : SymbolTable) (options : ChunkingOptions) :
    Except String (List Chunk × SymbolTable) :=
  .ok (shellChunkLoop d options filePath (linesOf content) 0 [] 1
    false st)

/-! ### Dockerfile chunker (`internal/chunker/dockerfile.go`) -/

/-- The `majorInstructions` list of `isChunkBoundary`. -/
def majorInstructions : List String :=
  ["FROM", "MAINTAINER", "RUN", "CMD", "LABEL",
   "EXPOSE", "ENV", "ADD", "COPY", "ENTRYPOINT",
   "VOLUME", "USER", "WORKDIR", "ARG", "ONBUILD",
   "STOPSIGNAL", "HEALTHCHECK", "SHELL"]

/-- The alternation of `extractInstructions`' `instructionPattern`
(it omits `MAINTAINER`), in source order. -/
def instructionAlts : List String :=
  ["FROM", "RUN", "CMD", "LABEL", "EXPOSE", "ENV", "ADD", "COPY",
   "ENTRYPOINT", "VOLUME", "USER", "WORKDIR", "ARG", "ONBUILD",
   "STOPSIGNAL", "HEALTHCHECK", "SHELL"]

/-- `isChunkBoundary` (internal/chunker/dockerfile.go). -/
def isChunkBoundary (line : String) : Bool :=
  if line == "" then false
  else if majorInstructions.any
      (fun instr => strStartsWith (strToUpper line) (instr ++ " ")) then true
  else strStartsWith (strToUpper line) "FROM " &&
    containsSub (strToUpper line) " AS "

/-- Match `(KW1|KW2|…)\s+` at the current position (leftmost-first
alternation in list order); returns the matched keyword, the whitespace
run, and the rest. -/
def matchInstrAt : List String → List Char → Option (String × List Char × List Char)
  | [], _ => none
  | kw :: kws, cs =>
    if leadsWith kw.data cs then
      match matchPlus isSpaceChar (cs.drop kw.length) with
      | some (run, rest) => some (kw, run, rest)
      | none => matchInstrAt kws cs
    else matchInstrAt kws cs

/-- Scanner for the multiline-anchored `(?m)^(FROM|RUN|…)\s+`: a match may
start only at the beginning of the content or right after a newline
(which may itself have been consumed by a previous match's `\s+`). -/
def scanInstr : Nat → Bool → List Char → List String
  | 0, _, _ => []
  | _ + 1, _, [] => []
  | fuel + 1, atStart, c :: cs =>
    if atStart then
      match matchInstrAt instructionAlts (c :: cs) with
      | some (kw, run, rest) =>
        kw :: scanInstr fuel (run.getLast? == some '\n') rest
      | none => scanInstr fuel (c == '\n') cs
    else scanInstr fuel (c == '\n') cs

/-- Case-insensitive literal match (`pat` given in lowercase). -/
def matchLitCI : List Char → List Char → Option (List Char)
  | [], cs => some cs
  | _ :: _, [] => none
  | l :: ls, c :: cs => if c.toLower = l then matchLitCI ls cs else none

/-- Matcher for `(?i)FROM\s+\S+\s+AS\s+(\S+)` at the current position. -/
def matchStageAt (cs : List Char) : Option (String × List Char) := do
  let cs ← matchLitCI "from".data cs
  let (_, cs) ← matchPlus isSpaceChar cs
  let (_, cs) ← matchPlus (fun c => !isSpaceChar c) cs
  let (_, cs) ← matchPlus isSpaceChar cs
  let cs ← matchLitCI "as".data cs
  let (_, cs) ← matchPlus isSpaceChar cs
  let (name, cs) ← matchPlus (fun c => !isSpaceChar c) cs
  some (String.mk name, cs)

/-- `DockerfileChunker.extractInstructions` before deduplication:
instruction keywords, then `stage:<name>` for each stage match. -/
def extractInstructionsRaw (content : String) : List String :=
  let cs := content.data
  scanInstr (cs.length + 1) true cs ++
    (scanAll matchStageAt (cs.length + 1) cs).map (fun n => "stage:" ++ n)

/-- `DockerfileChunker.extractInstructions`, parameterised by the map
iteration order `d` used for deduplication. -/
def extractInstructions (d : List String → List String) (content : String) :
    List String :=
  d (extractInstructionsRaw content)

/-- `DockerfileChunker.createChunk`. -/
def dockerCreateChunk (d : List String → List String) (filePath : String)
    (lines : List String) (startLine endLine : Nat) (st : SymbolTable) :
    Chunk × SymbolTable :=
  let content := String.intercalate "\n" lines
  let chunkID := GenerateID [filePath, content]
  let symbols := extractInstructions d content
  let chunk : Chunk :=
    { ID := chunkID, FilePath := filePath, StartLine := startLine,
      EndLine := endLine, Content := content, Language := "dockerfile",
      Symbols := symbols, TokenCount := EstimateTokenCount content }
  let st := symbols.foldl
    (fun acc symbol =>
      acc.AddDefinition symbol
        ⟨symbol, chunkID, filePath, startLine, endLine, "instruction"⟩) st
  (chunk, st)

/-- The per-line loop of `DockerfileChunker.Chunk`; `i` is the 0-based
index of the current line. -/
def dockerChunkLoop (d : List String → List String)
    (options : ChunkingOptions) (filePath : String) :
    List String → Nat → List String → Nat → SymbolTable →
    List Chunk × SymbolTable
  | [], i, pending, startLine, st =>
    if pending.length > 0 then
      let (c, st') := dockerCreateChunk d filePath pending startLine i st
      ([c], st')
    else ([], st)
  | line :: rest, i, pending, startLine, st =>
    let trimmedLine := trimStr line
    if pending.length == 0 &&
        (trimmedLine == "" || strStartsWith trimmedLine "#") then
      dockerChunkLoop d options filePath rest (i + 1) (pending ++ [line])
        startLine st
    else
      let flushBoundary := isChunkBoundary trimmedLine && pending.length > 0
      let (chunks1, st1) :=
        if flushBoundary then
          let (c, st') := dockerCreateChunk d filePath pending startLine i st
          ([c], st')
        else ([], st)
      let pending1 := if flushBoundary then [] else pending
      let startLine1 := if flushBoundary then i + 1 else startLine
      let pending2 := pending1 ++ [line]
      if pending2.length ≥ options.MaxChunkSize then
        let (c, st2) :=
          dockerCreateChunk d filePath pending2 startLine1 (i + 1) st1
        let (cs, st3) :=
          dockerChunkLoop d options filePath rest (i + 1) [] (i + 2) st2
        (chunks1 ++ c :: cs, st3)
      else
        let (cs, st2) :=
          dockerChunkLoop d options filePath rest (i + 1) pending2
            startLine1 st1
        (chunks1 ++ cs, st2)

/-- `DockerfileChunker.Chunk` (internal/chunker/dockerfile.go),
parameterised by the deduplication order `d`. -/
def dockerfileChunk (d : List String → List String) (filePath : String)
    (content : String) (st : SymbolTable) (options : ChunkingOptions) :
    Except String (List Chunk × SymbolTable) :=
  .ok (dockerChunkLoop d options filePath (linesOf content) 0 [] 1 st)

/-! ### Generic fallback chunker (unnamed source, `GenericChunker`) -/

/-- The alternation of `extractGenericSymbols`' `funcRegex`, in source
order. -/
def genericKeywords : List String :=
  ["function", "func", "def", "method", "void", "int", "string", "bool",
   "class", "struct", "interface"]

/-- Match `(function|func|…)\s+(\w+)` at the current position, returning
the second capture group. -/
def matchGenericAt : List String → List Char → Option (String × List Char)
  | [], _ => none
  | kw :: kws, cs =>
    match
      (do
        let rest ← matchLit kw.data cs
        let (_, rest) ← matchPlus isSpaceChar rest
        let (w, rest) ← matchPlus isWordChar rest
        some (String.mk w, rest) : Option (String × List Char)) with
    | some r => some r
    | none => matchGenericAt kws cs

/-- `extractGenericSymbols` before deduplication. -/
def extractGenericSymbolsRaw (content : String) : List String :=
  let cs := content.data
  scanAll (matchGenericAt genericKeywords) (cs.length + 1) cs

/-- `extractGenericSymbols`, parameterised by the map iteration order `d`
used for deduplication. -/
def extractGenericSymbols (d : List String → List String)
    (content : String) : List String :=
  d (extractGenericSymbolsRaw content)

/-- `filepath.Ext`: the suffix of the final path element starting at its
final dot, or `""`. -/
def filepathExt (path : String) : String :=
  let finalElem := (splitStr path '/').getLastD ""
  match (splitStr finalElem '.').length with
  | 0 => ""
  | 1 => ""
  | _ + 2 => "." ++ (splitStr finalElem '.').getLastD ""

/-- The language tag computed by `GenericChunker.Chunk`: the file
extension with the leading dot removed. -/
def genericLanguage (filePath : String) : String :=
  let language := filepathExt filePath
  if language ≠ "" && strStartsWith language "." then language.drop 1
  else language

/-- The window loop of `GenericChunker.Chunk`
(`for i := 0; i < len(lines); i += options.MaxChunkSize`); each step
consumes `MaxChunkSize` lines.  (For `MaxChunkSize = 0` the Go loop does
not terminate; this embedding then consumes one line per step.) -/
def genericChunkLoop (d : List String → List String)
    (filePath language : String) (maxSize : Nat) :
    List String → Nat → SymbolTable → List Chunk × SymbolTable
  | [], _, st => ([], st)
  | l :: ls, i, st =>
    let chunkLines := l :: ls.take (maxSize - 1)
    let chunkContent := String.intercalate "\n" chunkLines
    let chunkID := GenerateID [filePath, chunkContent]
    let symbols := extractGenericSymbols d chunkContent
    let chunk : Chunk :=
      { ID := chunkID, FilePath := filePath, StartLine := i + 1,
        EndLine := i + chunkLines.length, Content := chunkContent,
        Language := language, Symbols := symbols,
        TokenCount := EstimateTokenCount chunkContent }
    let st1 := symbols.foldl
      (fun acc symbol =>
        acc.AddDefinition symbol
          ⟨symbol, chunkID, filePath, i + 1, i + chunkLines.length,
            "generic"⟩) st
    let (cs, st2) :=
      genericChunkLoop d filePath language maxSize (ls.drop (maxSize - 1))
        (i + maxSize) st1
    (chunk :: cs, st2)
  termination_by ls => ls.length
  decreasing_by
    simp only [List.length_cons, List.length_drop]
    omega

/-- `GenericChunker.Chunk` (unnamed source), parameterised by the
deduplication order `d`. -/
def genericChunk (d : List String → List String) (filePath : String)
    (content : String) (st : SymbolTable) (options : ChunkingOptions) :
    Except String (List Chunk × SymbolTable) :=
  .ok (genericChunkLoop d filePath (genericLanguage filePath)
    options.MaxChunkSize (linesOf content) 0 st)

/-! ### Go chunker (unnamed source `internal/chunker/go.go`, `GoChunker`)

The `go/parser` call is external to the embedding: `goChunk` receives the
parse outcome as an `Option GoFile`.  A `GoFile` carries the positions and
names the chunker reads from the syntax tree, the import declarations, and
the identifier/node stream that `ast.Walk` presents to the reference
visitor (in traversal order). -/

/-- A position as produced by `fset.Position`: 1-based line and 0-based
byte offset. -/
structure GoPos where
  line : Nat
  offset : Nat
  deriving DecidableEq, Repr

/-- The shapes of a receiver-type expression the chunker distinguishes:
`*ast.StarExpr` over an `*ast.Ident`, a plain `*ast.Ident`, or anything
else. -/
inductive GoExpr where
  | ident (name : String)
  | star (e : GoExpr)
  | other
  deriving DecidableEq, Repr

/-- An `*ast.FuncDecl`: name, optional receiver type (the type of the
first entry of `Recv.List`), and source extent. -/
structure GoFuncDecl where
  Name : String
  Recv : Option GoExpr
  startPos : GoPos
  endPos : GoPos
  deriving DecidableEq, Repr

/-- The `token.Token` tags of a `*ast.GenDecl` relevant here. -/
inductive GoTok where
  | IMPORT
  | TYPE
  | CONST
  | VAR
  deriving DecidableEq, Repr

/-- An `ast.Spec`: `*ast.TypeSpec` (one name), `*ast.ValueSpec` (a name
list), or `*ast.ImportSpec` (a quoted path literal). -/
inductive GoSpec where
  | typeSpec (name : String)
  | valueSpec (names : List String)
  | importSpec (path : String)
  deriving DecidableEq, Repr

/-- An `*ast.GenDecl`. -/
structure GoGenDecl where
  Tok : GoTok
  Specs : List GoSpec
  startPos : GoPos
  endPos : GoPos
  deriving DecidableEq, Repr

/-- A top-level declaration. -/
inductive GoDecl where
  | funcDecl (fd : GoFuncDecl)
  | genDecl (gd : GoGenDecl)
  deriving DecidableEq, Repr

/-- One node of the `ast.Walk` traversal, as seen by `referenceVisitor`:
an identifier with its name, or any other node; each with its position. -/
inductive GoNode where
  | identNode (name : String) (pos : GoPos)
  | otherNode (pos : GoPos)
  deriving DecidableEq, Repr

/-- A parsed file: the fields of `*ast.File` the chunker reads. -/
structure GoFile where
  PackagePos : GoPos
  Name : String
  NameEndPos : GoPos
  Doc : Option GoPos
  Decls : List GoDecl
  ImportPaths : List String
  Nodes : List GoNode
  deriving DecidableEq, Repr

/-- `content[startPos.Offset:endPos.Offset]` (byte offsets; character
offsets here, identical for ASCII content). -/
def contentSlice (content : String) (a b : Nat) : String :=
  String.mk ((content.data.drop a).take (b - a))

/-- `strings.Trim(s, "\"")`: remove leading and trailing quote runs. -/
def trimQuotes (s : String) : String :=
  String.mk
    ((((s.data.dropWhile (· == '"')).reverse.dropWhile (· == '"')).reverse))

/-- `GoChunker.extractImports`. -/
def extractImports (file : GoFile) : List String :=
  file.ImportPaths.map trimQuotes

/-- The receiver-base resolution of `processFuncDecl`: one layer of
pointer indirection is stripped; any other shape yields `""`. -/
def receiverBase : GoExpr → String
  | .star (.ident n) => n
  | .ident n => n
  | _ => ""

/-- The `symbolName` computed by `processFuncDecl`: the bare name for a
function, `ReceiverBaseType.Name` for a method whose receiver base
resolves to a non-empty identifier. -/
def funcSymbolName (decl : GoFuncDecl) : String :=
  match decl.Recv with
  | none => decl.Name
  | some receiver =>
    let receiverType := receiverBase receiver
    if receiverType ≠ "" then receiverType ++ "." ++ decl.Name
    else decl.Name

/-- `GoChunker.processFuncDecl`. -/
def processFuncDecl (decl : GoFuncDecl) (filePath content : String)
    (imports : List String) (st : SymbolTable) : Chunk × SymbolTable :=
  let funcContent := contentSlice content decl.startPos.offset decl.endPos.offset
  let chunkID := GenerateID [filePath, funcContent]
  let symbolName := funcSymbolName decl
  let chunk : Chunk :=
    { ID := chunkID, FilePath := filePath, StartLine := decl.startPos.line,
      EndLine := decl.endPos.line, Content := funcContent, Language := "go",
      Symbols := [symbolName], Imports := imports,
      TokenCount := EstimateTokenCount funcContent }
  let st := st.AddDefinition symbolName
    ⟨symbolName, chunkID, filePath, decl.startPos.line, decl.endPos.line,
      "function"⟩
  let st :=
    match decl.Recv with
    | none => st
    | some receiver =>
      let receiverType := receiverBase receiver
      if receiverType ≠ "" then
        st.AddReference receiverType
          ⟨receiverType, chunkID, filePath, decl.startPos.line⟩
      else st
  (chunk, st)

/-- The zero value `model.Chunk{}`. -/
def emptyChunk : Chunk :=
  { ID := "", FilePath := "", StartLine := 0, EndLine := 0, Content := "",
    Language := "" }

/-- The symbol list and declaration-kind string computed by
`processGenDecl` from the declaration's token and specs. -/
def genDeclSymbols (gd : GoGenDecl) : List String × String :=
  match gd.Tok with
  | .TYPE =>
    (gd.Specs.filterMap (fun s =>
      match s with
      | .typeSpec n => some n
      | _ => none), "type")
  | .CONST =>
    ((gd.Specs.filterMap (fun s =>
      match s with
      | .valueSpec ns => some ns
      | _ => none)).flatten, "const")
  | .VAR =>
    ((gd.Specs.filterMap (fun s =>
      match s with
      | .valueSpec ns => some ns
      | _ => none)).flatten, "var")
  | .IMPORT => ([], "")

/-- `GoChunker.processGenDecl`. -/
def processGenDecl (decl : GoGenDecl) (filePath content : String)
    (imports : List String) (st : SymbolTable) : Chunk × SymbolTable :=
  let declContent := contentSlice content decl.startPos.offset decl.endPos.offset
  let chunkID := GenerateID [filePath, declContent]
  let (symbols, declType) := genDeclSymbols decl
  if symbols.length == 0 || declContent == "" then (emptyChunk, st)
  else
    let chunk : Chunk :=
      { ID := chunkID, FilePath := filePath,
        StartLine := decl.startPos.line, EndLine := decl.endPos.line,
        Content := declContent, Language := "go", Symbols := symbols,
        Imports := imports, TokenCount := EstimateTokenCount declContent }
    let st := symbols.foldl
      (fun acc symbol =>
        acc.AddDefinition symbol
          ⟨symbol, chunkID, filePath, decl.startPos.line,
            decl.endPos.line, declType⟩) st
    (chunk, st)

/-- `GoChunker.processImportsSection`: the first `GenDecl` with token
`IMPORT`, or the zero chunk. -/
def processImportsSection (file : GoFile) (filePath content : String) :
    Chunk :=
  let importDecl := file.Decls.findSome? (fun d =>
    match d with
    | .genDecl gd => if gd.Tok == .IMPORT then some gd else none
    | _ => none)
  match importDecl with
  | none => emptyChunk
  | some gd =>
    let importsContent := contentSlice content gd.startPos.offset gd.endPos.offset
    { ID := GenerateID [filePath, importsContent], FilePath := filePath,
      StartLine := gd.startPos.line, EndLine := gd.endPos.line,
      Content := importsContent, Language := "go",
      Symbols := ["imports"],
      TokenCount := EstimateTokenCount importsContent }

/-- `GoChunker.processPackageSection`: the package clause, extended to a
leading doc comment when present. -/
def processPackageSection (file : GoFile) (filePath content packageName : String) :
    Chunk :=
  let startPos := match file.Doc with
    | some commentStartPos => commentStartPos
    | none => file.PackagePos
  let endPos := file.NameEndPos
  let packageContent := contentSlice content startPos.offset endPos.offset
  { ID := GenerateID [filePath, packageContent], FilePath := filePath,
    StartLine := startPos.line, EndLine := endPos.line,
    Content := packageContent, Language := "go",
    Symbols := [packageName],
    TokenCount := EstimateTokenCount packageContent }

/-- `isBasicType` (internal/chunker/go.go). -/
def isBasicType (name : String) : Bool :=
  ["bool", "byte", "complex128", "complex64", "error", "float32",
   "float64", "int", "int16", "int32", "int64", "int8", "rune", "string",
   "uint", "uint16", "uint32", "uint64", "uint8", "uintptr"].contains name

/-- `isKeyword` (internal/chunker/go.go). -/
def isKeyword (name : String) : Bool :=
  ["break", "case", "chan", "const", "continue", "default", "defer",
   "else", "fallthrough", "for", "func", "go", "goto", "if", "import",
   "interface", "map", "package", "range", "return", "select", "struct",
   "switch", "type", "var"].contains name

/-- Key-presence test of a Go map (`_, exists := m[name]`). -/
def mapHasKey (m : List (String × List α)) (name : String) : Bool :=
  (m.find? (fun p => p.1 == name)).isSome

/-- One visitor step of `referenceVisitor.Visit`: update `currentChunk`
to the first chunk whose line range contains the node, then record a
reference for a known, non-reserved identifier.  (The visitor's
`filePath` field is populated with `file.Name.Name`, the package name, in
the source.) -/
def visitNode (chunks : List Chunk) (packageName : String)
    (acc : String × SymbolTable) (node : GoNode) : String × SymbolTable :=
  let pos := match node with
    | .identNode _ p => p
    | .otherNode p => p
  let currentChunk :=
    match chunks.find? (fun ch =>
      pos.line ≥ ch.StartLine && pos.line ≤ ch.EndLine) with
    | some ch => ch.ID
    | none => acc.1
  match node with
  | .otherNode _ => (currentChunk, acc.2)
  | .identNode name _ =>
    if isBasicType name || isKeyword name then (currentChunk, acc.2)
    else if mapHasKey acc.2.Definitions name then
      if currentChunk ≠ "" then
        (currentChunk,
          acc.2.AddReference name ⟨name, currentChunk, packageName, pos.line⟩)
      else (currentChunk, acc.2)
    else (currentChunk, acc.2)

/-- `GoChunker.collectReferences`: walk the node stream, threading the
visitor state. -/
def collectReferences (file : GoFile) (chunks : List Chunk)
    (st : SymbolTable) : SymbolTable :=
  (file.Nodes.foldl (visitNode chunks file.Name) ("", st)).2

/-- The fallback window loop of `GoChunker.fallbackChunking`
(`for i := 0; i < len(lines); i += options.MaxChunkSize`); as in
`genericChunkLoop`, a step consumes `MaxChunkSize` lines (Go does not
terminate when `MaxChunkSize = 0`; this embedding then consumes one). -/
def goFallbackLoop (filePath : String) (maxSize : Nat) :
    List String → Nat → List Chunk
  | [], _ => []
  | l :: ls, i =>
    let chunkLines := l :: ls.take (maxSize - 1)
    let chunkContent := String.intercalate "\n" chunkLines
    let chunk : Chunk :=
      { ID := GenerateID [filePath, chunkContent], FilePath := filePath,
        StartLine := i + 1, EndLine := i + chunkLines.length,
        Content := chunkContent, Language := "go",
        TokenCount := EstimateTokenCount chunkContent }
    chunk :: goFallbackLoop filePath maxSize (ls.drop (maxSize - 1))
      (i + maxSize)
  termination_by ls => ls.length
  decreasing_by
    simp only [List.length_cons, List.length_drop]
    omega

/-- `GoChunker.fallbackChunking`: line-window chunks, no symbols, no
symbol-table writes, nil error. -/
def fallbackChunking (filePath : String) (content : String)
    (st : SymbolTable) (options : ChunkingOptions) :
    Except String (List Chunk × SymbolTable) :=
  .ok (goFallbackLoop filePath options.MaxChunkSize
    (linesOf content) 0, st)

/-- The first pass of `GoChunker.Chunk` over `file.Decls`. -/
def processDecls (file : GoFile) (filePath content : String)
    (imports : List String) : List GoDecl → SymbolTable →
    List Chunk × SymbolTable
  | [], st => ([], st)
  | .funcDecl fd :: rest, st =>
    let (chunk, st1) := processFuncDecl fd filePath content imports st
    let (cs, st2) := processDecls file filePath content imports rest st1
    (chunk :: cs, st2)
  | .genDecl gd :: rest, st =>
    if gd.Tok == .TYPE || gd.Tok == .CONST || gd.Tok == .VAR then
      let (chunk, st1) := processGenDecl gd filePath content imports st
      let (cs, st2) := processDecls file filePath content imports rest st1
      (if chunk.Content ≠ "" then chunk :: cs else cs, st2)
    else
      processDecls file filePath content imports rest st

/-- `GoChunker.Chunk` (unnamed source `internal/chunker/go.go`).  The
parse outcome of `parser.ParseFile` is supplied as `parsed`; `none` takes
the fallback branch. -/
def goChunk (parsed : Option GoFile) (filePath : String) (content : String)
    (st : SymbolTable) (options : ChunkingOptions) :
    Except String (List Chunk × SymbolTable) :=
  match parsed with
  | none => fallbackChunking filePath content st options
  | some file =>
    let packageName := file.Name
    let imports := extractImports file
    let (chunks, st1) := processDecls file filePath content imports
      file.Decls st
    let importsChunk := processImportsSection file filePath content
    let chunks := if importsChunk.Content ≠ "" then chunks ++ [importsChunk]
      else chunks
    let packageChunk := processPackageSection file filePath content packageName
    let chunks := if packageChunk.Content ≠ "" then chunks ++ [packageChunk]
      else chunks
    let st2 := collectReferences file chunks st1
    .ok (chunks, st2)

/-! ### Relationship engine (`internal/model/symbol.go`,
`SymbolTable.FindRelatedChunks`) -/

/-- `model.RelationWeak` (= 1). -/
def RelationWeak : Nat := 1

/-- `model.RelationMedium` (= 5). -/
def RelationMedium : Nat := 5

/-- `model.RelationStrong` (= 10). -/
def RelationStrong : Nat := 10

/-- `st.Definitions[name]`. -/
def defsOf (st : SymbolTable) (name : String) : List SymbolDefinition :=
  mapLookup st.Definitions name

/-- `st.References[name]`. -/
def refsOf (st : SymbolTable) (name : String) : List SymbolReference :=
  mapLookup st.References name

/-- `path/filepath.Clean` for slash-separated paths: drop empty and `.`
elements, resolve `..` against the stack, keep rootedness. -/
def cleanPath (path : String) : String :=
  if path = "" then "."
  else
    let rooted := strStartsWith path "/"
    let stack := (splitStr path '/').foldl
      (fun acc e =>
        if e = "" || e = "." then acc
        else if e = ".." then
          match acc with
          | [] => if rooted then [] else [".."]
          | top :: rest => if top = ".." then e :: acc else rest
        else e :: acc) []
    let out := String.intercalate "/" stack.reverse
    if rooted then "/" ++ out
    else if out = "" then "." else out

/-- `path/filepath.Base`. -/
def filepathBase (path : String) : String :=
  if path = "" then "."
  else
    let cs := (path.data.reverse.dropWhile (· == '/')).reverse
    if cs = [] then "/"
    else
      let name := (cs.reverse.takeWhile (· ≠ '/')).reverse
      if name = [] then "/" else String.mk name

/-- `path/filepath.Dir`: everything up to and including the final slash,
cleaned. -/
def filepathDir (path : String) : String :=
  let cs := path.data
  let keep := cs.length - (cs.reverse.takeWhile (· ≠ '/')).length
  cleanPath (String.mk (cs.take keep))

/-- `model.extractPackageName`. -/
def extractPackageName (filePath : String) : String :=
  filepathBase (filepathDir filePath)

/-- `model.extractPackageNameFromImport`. -/
def extractPackageNameFromImport (importPath : String) : String :=
  filepathBase importPath

/-- `relatedChunks[id] = max(relatedChunks[id], s)`: a missing key reads
as the zero value `0`, so the entry becomes `max 0 s = s`. -/
def bumpStrength (m : List (String × Nat)) (id : String) (s : Nat) :
    List (String × Nat) :=
  match m with
  | [] => [(id, s)]
  | (k, v) :: rest =>
    if k == id then (k, max v s) :: rest
    else (k, v) :: bumpStrength rest id s

/-- Apply a sequence of `(candidate, strength)` max-updates. -/
def bumpList (m : List (String × Nat)) (ps : List (String × Nat)) :
    List (String × Nat) :=
  ps.foldl (fun acc p => bumpStrength acc p.1 p.2) m

/-- Rule 1 of `FindRelatedChunks`: chunks referencing a symbol this chunk
lists. -/
def rule1pairs (st : SymbolTable) (cc : Chunk) : List (String × Nat) :=
  cc.Symbols.flatMap (fun symbol =>
    (refsOf st symbol).filterMap (fun ref =>
      if ref.ChunkID ≠ cc.ID then some (ref.ChunkID, RelationStrong)
      else none))

/-- Rule 2 of `FindRelatedChunks`: defining chunks of symbols this chunk
references (iterating the definition keys, as the source ranges over
`st.Definitions`). -/
def rule2pairs (st : SymbolTable) (cc : Chunk) : List (String × Nat) :=
  st.Definitions.flatMap (fun entry =>
    let symbol := entry.1
    let isReferenced := (refsOf st symbol).any (fun ref => ref.ChunkID == cc.ID)
    if isReferenced then
      (defsOf st symbol).filterMap (fun dd =>
        if dd.ChunkID ≠ cc.ID then some (dd.ChunkID, RelationStrong)
        else none)
    else [])

/-- Rule 3, first half: a `Type.Method` symbol links to chunks defining
`Type`. -/
def rule3apairs (st : SymbolTable) (cc : Chunk) : List (String × Nat) :=
  cc.Symbols.flatMap (fun symbol =>
    if containsSub symbol "." then
      let parts := splitStr symbol '.'
      if parts.length == 2 then
        (defsOf st (parts.headD "")).filterMap (fun dd =>
          if dd.ChunkID ≠ cc.ID then some (dd.ChunkID, RelationStrong)
          else none)
      else []
    else [])

/-- Rule 3, second half: a chunk defining `Type` links to chunks defining
any `Type.*`. -/
def rule3bpairs (st : SymbolTable) (cc : Chunk) : List (String × Nat) :=
  cc.Symbols.flatMap (fun symbol =>
    let methodPattern := symbol ++ "."
    st.Definitions.flatMap (fun entry =>
      if strStartsWith entry.1 methodPattern then
        (defsOf st entry.1).filterMap (fun methodDef =>
          if methodDef.ChunkID ≠ cc.ID then
            some (methodDef.ChunkID, RelationStrong)
          else none)
      else []))

/-- Rule 4: interface/implementer heuristic; fires only for a definition
of kind `"interface"` located in this chunk. -/
def rule4pairs (st : SymbolTable) (cc : Chunk) : List (String × Nat) :=
  cc.Symbols.flatMap (fun symbol =>
    (defsOf st symbol).flatMap (fun dd =>
      if dd.type' == "interface" && dd.ChunkID == cc.ID then
        st.Definitions.flatMap (fun entry =>
          let methodSymbol := entry.1
          if containsSub methodSymbol "." then
            let methodName := (splitStr methodSymbol '.').getD 1 ""
            if containsSub cc.Content methodName then
              (defsOf st methodSymbol).filterMap (fun methodDef =>
                if methodDef.ChunkID ≠ cc.ID then
                  some (methodDef.ChunkID, RelationMedium)
                else none)
            else []
          else [])
      else []))

/-- Rule 5: import relationships — chunks in the package named by the
last segment of an imported path. -/
def rule5pairs (st : SymbolTable) (cc : Chunk) : List (String × Nat) :=
  cc.Imports.flatMap (fun imp =>
    let pkgName := extractPackageNameFromImport imp
    st.AllChunks.filterMap (fun otherChunk =>
      if pkgName == extractPackageName otherChunk.FilePath &&
          otherChunk.ID ≠ cc.ID then
        some (otherChunk.ID, RelationMedium)
      else none))

/-- Rule 6 candidates: same-package chunks, added only when not already
present. -/
def rule6ids (st : SymbolTable) (cc : Chunk) : List String :=
  let packageName := extractPackageName cc.FilePath
  if packageName ≠ "" then
    st.AllChunks.filterMap (fun otherChunk =>
      if packageName == extractPackageName otherChunk.FilePath &&
          otherChunk.ID ≠ cc.ID then
        some otherChunk.ID
      else none)
  else []

/-- `if _, exists := relatedChunks[id]; !exists { relatedChunks[id] = s }`. -/
def insertIfAbsent (m : List (String × Nat)) (id : String) (s : Nat) :
    List (String × Nat) :=
  if (m.find? (fun p => p.1 == id)).isSome then m else m ++ [(id, s)]

/-- The `relatedChunks` map of `FindRelatedChunks` after all six rule
phases, in source order. -/
def relatedChunksMap (st : SymbolTable) (cc : Chunk) :
    List (String × Nat) :=
  let m := bumpList [] (rule1pairs st cc)
  let m := bumpList m (rule2pairs st cc)
  let m := bumpList m (rule3apairs st cc)
  let m := bumpList m (rule3bpairs st cc)
  let m := bumpList m (rule4pairs st cc)
  let m := bumpList m (rule5pairs st cc)
  (rule6ids st cc).foldl (fun acc id => insertIfAbsent acc id RelationWeak) m

/-- `maxRelations` (internal/model/symbol.go). -/
def maxRelations : Nat := 10

/-- The possible results of `FindRelatedChunks`: the map entries are
listed in unspecified Go map iteration order and sorted with the unstable
`sort.Slice` under `strength_i > strength_j`, so any permutation of the
entries that is non-increasing in strength may be the sorted slice; the
first `maxRelations` chunk IDs are returned. -/
def FindRelatedChunksOut (st : SymbolTable) (cc : Chunk)
    (result : List String) : Prop :=
  ∃ pairs : List (String × Nat),
    pairs.Perm (relatedChunksMap st cc) ∧
    List.Chain' (fun a b : String × Nat => b.2 ≤ a.2) pairs ∧
    result = (pairs.take maxRelations).map Prod.fst


/-! ### Basic lemmas about the association-list maps -/

theorem mapLookup_mapAppend_self (m : List (String × List α)) (name : String)
    (v : α) : mapLookup (mapAppend m name v) name = mapLookup m name ++ [v] := by
  induction m with
  | nil => simp [mapAppend, mapLookup]
  | cons p rest ih =>
    obtain ⟨k, vs⟩ := p
    by_cases h : k = name
    · subst h
      simp [mapAppend, mapLookup]
    · simp [mapAppend, mapLookup, h, ih]

theorem mapLookup_mapAppend_ne (m : List (String × List α))
    (name k : String) (v : α) (h : k ≠ name) :
    mapLookup (mapAppend m name v) k = mapLookup m k := by
  have h' : name ≠ k := Ne.symm h
  induction m with
  | nil => simp [mapAppend, mapLookup, h']
  | cons p rest ih =>
    obtain ⟨k', vs⟩ := p
    by_cases hk : k' = name
    · subst hk
      simp [mapAppend, mapLookup, h']
    · simp [mapAppend, mapLookup, hk, ih]

theorem mem_mapLookup_mapAppend {m : List (String × List α)}
    {name k : String} {v d : α}
    (h : d ∈ mapLookup (mapAppend m name v) k) :
    d ∈ mapLookup m k ∨ d = v := by
  by_cases hk : k = name
  · subst hk
    rw [mapLookup_mapAppend_self] at h
    rcases List.mem_append.1 h with h' | h'
    · exact Or.inl h'
    · exact Or.inr (List.mem_singleton.1 h')
  · rw [mapLookup_mapAppend_ne m name k v hk] at h
    exact Or.inl h

theorem defsOf_AddDefinition_self (st : SymbolTable) (name : String)
    (d : SymbolDefinition) :
    defsOf (st.AddDefinition name d) name = defsOf st name ++ [d] := by
  simp [defsOf, SymbolTable.AddDefinition, mapLookup_mapAppend_self]

theorem defsOf_AddReference (st : SymbolTable) (name k : String)
    (r : SymbolReference) :
    defsOf (st.AddReference name r) k = defsOf st k := by
  simp [defsOf, SymbolTable.AddReference]

/-! ### C6: method and function symbol naming in the Go chunker -/

theorem processFuncDecl_symbols (decl : GoFuncDecl)
    (filePath content : String) (imports : List String) (st : SymbolTable) :
    (processFuncDecl decl filePath content imports st).1.Symbols =
      [funcSymbolName decl] := by
  cases hr : decl.Recv with
  | none => simp [processFuncDecl, hr]
  | some receiver =>
    by_cases hb : receiverBase receiver = ""
    · simp [processFuncDecl, hr, hb]
    · simp [processFuncDecl, hr, hb]

theorem processFuncDecl_defs (decl : GoFuncDecl)
    (filePath content : String) (imports : List String) (st : SymbolTable) :
    defsOf (processFuncDecl decl filePath content imports st).2
        (funcSymbolName decl) =
      defsOf st (funcSymbolName decl) ++
        [⟨funcSymbolName decl,
          (processFuncDecl decl filePath content imports st).1.ID,
          filePath, decl.startPos.line, decl.endPos.line, "function"⟩] := by
  cases hr : decl.Recv with
  | none => simp [processFuncDecl, hr, defsOf_AddDefinition_self]
  | some receiver =>
    by_cases hb : receiverBase receiver = ""
    · simp [processFuncDecl, hr, hb, defsOf_AddDefinition_self]
    · simp [processFuncDecl, hr, hb, defsOf_AddReference,
        defsOf_AddDefinition_self]

/-- C6: a top-level method with receiver `T` or `*T` and name `M`
registers, on the method's chunk, exactly the symbol `T.M` (one layer of
pointer indirection stripped) as a `SymbolDefinition` of kind
`"function"`; a plain function registers its bare name, also of kind
`"function"`. -/
theorem goMethodSymbolNaming :
    (∀ (decl : GoFuncDecl) (filePath content : String)
      (imports : List String) (st : SymbolTable) (T M : String),
      T ≠ "" → decl.Name = M →
      (decl.Recv = some (.ident T) ∨ decl.Recv = some (.star (.ident T))) →
      (processFuncDecl decl filePath content imports st).1.Symbols =
          [T ++ "." ++ M] ∧
        defsOf (processFuncDecl decl filePath content imports st).2
            (T ++ "." ++ M) =
          defsOf st (T ++ "." ++ M) ++
            [⟨T ++ "." ++ M,
              (processFuncDecl decl filePath content imports st).1.ID,
              filePath, decl.startPos.line, decl.endPos.line, "function"⟩]) ∧
    (∀ (decl : GoFuncDecl) (filePath content : String)
      (imports : List String) (st : SymbolTable),
      decl.Recv = none →
      (processFuncDecl decl filePath content imports st).1.Symbols =
          [decl.Name] ∧
        defsOf (processFuncDecl decl filePath content imports st).2
            decl.Name =
          defsOf st decl.Name ++
            [⟨decl.Name,
              (processFuncDecl decl filePath content imports st).1.ID,
              filePath, decl.startPos.line, decl.endPos.line, "function"⟩]) := by
  constructor
  · intro decl filePath content imports st T M hT hname hrecv
    have hsym : funcSymbolName decl = T ++ "." ++ M := by
      rcases hrecv with h | h <;>
        simp [funcSymbolName, h, receiverBase, hT, hname]
    refine ⟨?_, ?_⟩
    · rw [processFuncDecl_symbols, hsym]
    · rw [← hsym]
      exact processFuncDecl_defs decl filePath content imports st
  · intro decl filePath content imports st h
    have hsym : funcSymbolName decl = decl.Name := by
      simp [funcSymbolName, h]
    refine ⟨?_, ?_⟩
    · rw [processFuncDecl_symbols, hsym]
    · rw [← hsym]
      exact processFuncDecl_defs decl filePath content imports st

/-- Witness for C6 at the spec's example: receiver `*Person`, method
`Greet` registers exactly `Person.Greet`; a plain function `main`
registers `main`. -/
theorem goMethodSymbolNaming_witness :
    (processFuncDecl ⟨"Greet", some (.star (.ident "Person")), ⟨19, 300⟩,
        ⟨21, 400⟩⟩ "main.go" "" [] NewSymbolTable).1.Symbols =
      ["Person.Greet"] ∧
    (processFuncDecl ⟨"main", none, ⟨5, 40⟩, ⟨7, 80⟩⟩ "main.go" "" []
        NewSymbolTable).1.Symbols = ["main"] := by
  constructor
  · exact (goMethodSymbolNaming.1 ⟨"Greet", some (.star (.ident "Person")),
      ⟨19, 300⟩, ⟨21, 400⟩⟩ "main.go" "" [] NewSymbolTable "Person" "Greet"
      (by decide) rfl (Or.inr rfl)).1
  · exact (goMethodSymbolNaming.2 ⟨"main", none, ⟨5, 40⟩, ⟨7, 80⟩⟩
      "main.go" "" [] NewSymbolTable rfl).1

/-! ### Line-range partitions -/

/-- The inclusive line ranges of a chunk list. -/
def ranges (chunks : List Chunk) : List (Nat × Nat) :=
  chunks.map (fun c => (c.StartLine, c.EndLine))

/-- `tiles rs s n`: the ranges `rs` cover the lines `s … n` exactly — the
first starts at `s`, each subsequent range starts one past the previous
end, and the last ends at `n` (for `rs = []`, `s = n + 1`). -/
def tiles : List (Nat × Nat) → Nat → Nat → Bool
  | [], s, n => s == n + 1
  | (a, b) :: rest, s, n => a == s && decide (s ≤ b) && tiles rest (b + 1) n

/-- The line ranges of consecutive fixed-size windows of `maxS` lines
over `n` lines starting after line `i` (the last window possibly
shorter); each window takes the next line plus up to `maxS - 1` more. -/
def windowRanges (maxS : Nat) : Nat → Nat → List (Nat × Nat)
  | 0, _ => []
  | n + 1, i =>
    (i + 1, i + 1 + min (maxS - 1) n) ::
      windowRanges maxS (n - min (maxS - 1) n) (i + 1 + min (maxS - 1) n)
  termination_by n => n
  decreasing_by omega

theorem windowRanges_tiles (maxS : Nat) :
    ∀ bound n i, n ≤ bound →
      tiles (windowRanges maxS n i) (i + 1) (i + n) = true := by
  intro bound
  induction bound with
  | zero =>
    intro n i hn
    have : n = 0 := by omega
    subst this
    simp [windowRanges, tiles]
  | succ b ih =>
    intro n i hn
    match n with
    | 0 => simp [windowRanges, tiles]
    | m + 1 =>
      rw [windowRanges, tiles]
      have h1 := ih (m - min (maxS - 1) m) (i + 1 + min (maxS - 1) m)
        (by omega)
      rw [show i + 1 + min (maxS - 1) m + (m - min (maxS - 1) m) =
        i + (m + 1) by omega] at h1
      simp only [beq_self_eq_true, Bool.true_and, h1, Bool.and_true]
      simp

theorem windowRanges_fixed_size (maxS : Nat) (h : 0 < maxS) :
    ∀ bound n i, n ≤ bound →
      ∀ r ∈ (windowRanges maxS n i).dropLast, r.2 + 1 - r.1 = maxS := by
  intro bound
  induction bound with
  | zero =>
    intro n i hn r hr
    have : n = 0 := by omega
    subst this
    simp [windowRanges] at hr
  | succ b ih =>
    intro n i hn r hr
    match n with
    | 0 => simp [windowRanges] at hr
    | m + 1 =>
      rw [windowRanges] at hr
      by_cases hemp : windowRanges maxS (m - min (maxS - 1) m)
          (i + 1 + min (maxS - 1) m) = []
      · rw [hemp] at hr
        simp at hr
      · rw [List.dropLast_cons_of_ne_nil hemp] at hr
        rcases List.mem_cons.1 hr with h1 | h1
        · subst h1
          have hrest : m - min (maxS - 1) m ≠ 0 := by
            intro h0
            rw [h0] at hemp
            exact hemp (by simp [windowRanges])
          have : min (maxS - 1) m = maxS - 1 := by omega
          simp [this]
          omega
        · exact ih (m - min (maxS - 1) m) (i + 1 + min (maxS - 1) m)
            (by omega) r h1

theorem goFallbackLoop_ranges (filePath : String) (maxS : Nat)
    (hpos : 0 < maxS) :
    ∀ bound (lines : List String) i, lines.length ≤ bound →
      ranges (goFallbackLoop filePath maxS lines i) =
        windowRanges maxS lines.length i := by
  intro bound
  induction bound with
  | zero =>
    intro lines i hn
    have : lines = [] := by
      cases lines with
      | nil => rfl
      | cons l ls => simp at hn
    subst this
    simp [goFallbackLoop, ranges, windowRanges]
  | succ b ih =>
    intro lines i hn
    match lines with
    | [] => simp [goFallbackLoop, ranges, windowRanges]
    | l :: ls =>
      rw [goFallbackLoop]
      simp only [ranges, List.map_cons, List.length_cons]
      rw [windowRanges]
      congr 1
      · simp [List.length_take]
        omega
      · show ranges (goFallbackLoop filePath maxS (ls.drop (maxS - 1))
          (i + maxS)) = _
        rw [ih (ls.drop (maxS - 1)) (i + maxS) (by
          simp only [List.length_drop, List.length_cons] at hn ⊢
          omega)]
        simp only [List.length_drop]
        by_cases hge : maxS - 1 ≤ ls.length
        · have hmin : min (maxS - 1) ls.length = maxS - 1 := by omega
          have h2 : i + maxS = i + 1 + (maxS - 1) := by omega
          rw [hmin, h2]
        · have h0 : ls.length - (maxS - 1) = 0 := by omega
          have h0' : ls.length - min (maxS - 1) ls.length = 0 := by omega
          rw [h0, h0']
          simp [windowRanges]

theorem goFallbackLoop_no_symbols (filePath : String) (maxS : Nat) :
    ∀ bound (lines : List String) i, lines.length ≤ bound →
      ∀ c ∈ goFallbackLoop filePath maxS lines i, c.Symbols = [] := by
  intro bound
  induction bound with
  | zero =>
    intro lines i hn c hc
    have : lines = [] := by
      cases lines with
      | nil => rfl
      | cons l ls => simp at hn
    subst this
    simp [goFallbackLoop] at hc
  | succ b ih =>
    intro lines i hn c hc
    match lines with
    | [] => simp [goFallbackLoop] at hc
    | l :: ls =>
      rw [goFallbackLoop] at hc
      rcases List.mem_cons.1 hc with h1 | h1
      · subst h1
        rfl
      · exact ih (ls.drop (maxS - 1)) (i + maxS) (by
          simp [List.length_drop] at hn ⊢
          omega) c h1

/-! ### C7: parse failure degrades to symbol-free line windows -/

/-- C7: when the Go parser fails, `GoChunker.Chunk` returns without error
(`.ok`), leaves the symbol table untouched (no definitions or references
added), and produces exactly the consecutive `MaxChunkSize`-line windows
over the file (windows of `MaxChunkSize` lines, the last possibly
shorter), every chunk carrying an empty symbol list. -/
theorem goChunkParseFailure (filePath content : String) (st : SymbolTable)
    (options : ChunkingOptions) (h : 0 < options.MaxChunkSize) :
    ∃ chunks,
      goChunk none filePath content st options = .ok (chunks, st) ∧
      ranges chunks =
        windowRanges options.MaxChunkSize (linesOf content).length 0 ∧
      tiles (ranges chunks) 1 (linesOf content).length = true ∧
      (∀ r ∈ (ranges chunks).dropLast,
        r.2 + 1 - r.1 = options.MaxChunkSize) ∧
      (∀ c ∈ chunks, c.Symbols = []) := by
  refine ⟨goFallbackLoop filePath options.MaxChunkSize
    (linesOf content) 0, rfl, ?_, ?_, ?_, ?_⟩
  · exact goFallbackLoop_ranges filePath options.MaxChunkSize h _ _ 0 le_rfl
  · rw [goFallbackLoop_ranges filePath options.MaxChunkSize h _ _ 0 le_rfl]
    simpa using windowRanges_tiles options.MaxChunkSize
      (linesOf content).length (linesOf content).length 0 le_rfl
  · rw [goFallbackLoop_ranges filePath options.MaxChunkSize h _ _ 0 le_rfl]
    exact windowRanges_fixed_size options.MaxChunkSize h _ _ 0 le_rfl
  · exact goFallbackLoop_no_symbols filePath options.MaxChunkSize _ _ 0 le_rfl

/-- Witness for C7 at a concrete unparsable input. -/
theorem goChunkParseFailure_witness :
    ∃ chunks,
      goChunk none "broken.go" "func (\nb\nc" NewSymbolTable ⟨0, 2⟩ =
        .ok (chunks, NewSymbolTable) ∧
      ranges chunks = windowRanges 2 (linesOf "func (\nb\nc").length 0 ∧
      tiles (ranges chunks) 1 (linesOf "func (\nb\nc").length = true ∧
      (∀ r ∈ (ranges chunks).dropLast, r.2 + 1 - r.1 = 2) ∧
      (∀ c ∈ chunks, c.Symbols = []) :=
  goChunkParseFailure "broken.go" "func (\nb\nc" NewSymbolTable ⟨0, 2⟩
    (by decide)

/-! ### C3: position and extent of the package-level chunk -/

/-- A minimal parsed Go file, `package test\n\nfunc F() {}\n`:
the package clause occupies line 1 (offsets 0–12), the function `F`
occupies line 3 (offsets 14–25). -/
def tinyGoContent : String := "package test\n\nfunc F() \x7b\x7d\n"

def tinyGoFile : GoFile :=
  { PackagePos := ⟨1, 0⟩, Name := "test", NameEndPos := ⟨1, 12⟩,
    Doc := none,
    Decls := [.funcDecl ⟨"F", none, ⟨3, 14⟩, ⟨3, 25⟩⟩],
    ImportPaths := [],
    Nodes := [.identNode "test" ⟨1, 8⟩, .otherNode ⟨3, 14⟩,
      .identNode "F" ⟨3, 19⟩] }

/-- C3 (counterexample): on a successfully parsed file the Go chunker
does **not** emit a whole-file chunk first: for `tinyGoFile` (4 lines
after splitting) the emitted ranges are `[(3, 3), (1, 1)]` — the function
chunk comes first and the package chunk, emitted last, spans only
line 1, so no chunk spans lines 1–4 and the declaration chunk is not
inside the package chunk's range. -/
theorem goWholeFileFirst_counterexample :
    ((goChunk (some tinyGoFile) "t.go" tinyGoContent NewSymbolTable
        ⟨5, 50⟩).toOption.map (fun p => ranges p.1) =
          some [(3, 3), (1, 1)]) ∧
      (linesOf tinyGoContent).length = 4 ∧
      ([(3, 3), (1, 1)] : List (Nat × Nat)).head? ≠ some (1, 4) ∧
      ¬ ((3 : Nat) ≤ 1) := by
  refine ⟨by decide, by decide, by decide, by decide⟩

/-- C3 (amended): for every successfully parsed file whose package
section is non-empty, the Go chunker emits the package-level chunk
**last**, spanning only the leading doc comment (when present) and the
package clause — its end line is the line of the package name's end, not
the file's last line; the declaration chunks precede it and their ranges
need not be contained in it. -/
theorem goChunkPackageChunkLast (file : GoFile)
    (filePath content : String) (st : SymbolTable)
    (options : ChunkingOptions)
    (h : (processPackageSection file filePath content file.Name).Content ≠ "") :
    ∃ chunks st',
      goChunk (some file) filePath content st options = .ok (chunks, st') ∧
      chunks.getLast? =
        some (processPackageSection file filePath content file.Name) ∧
      (processPackageSection file filePath content file.Name).StartLine =
        (match file.Doc with
          | some commentStartPos => commentStartPos
          | none => file.PackagePos).line ∧
      (processPackageSection file filePath content file.Name).EndLine =
        file.NameEndPos.line := by
  refine ⟨_, _, rfl, ?_, rfl, rfl⟩
  show (if (processPackageSection file filePath content file.Name).Content ≠ ""
    then _ ++ [processPackageSection file filePath content file.Name]
    else _).getLast? = _
  rw [if_pos h]
  exact List.getLast?_concat _

/-- Witness for C3's amended statement at `tinyGoFile`. -/
theorem goChunkPackageChunkLast_witness :
    ∃ chunks st',
      goChunk (some tinyGoFile) "t.go" tinyGoContent NewSymbolTable
        ⟨5, 50⟩ = .ok (chunks, st') ∧
      chunks.getLast? =
        some (processPackageSection tinyGoFile "t.go" tinyGoContent
          "test") ∧
      (processPackageSection tinyGoFile "t.go" tinyGoContent
          "test").StartLine =
        (match tinyGoFile.Doc with
          | some commentStartPos => commentStartPos
          | none => tinyGoFile.PackagePos).line ∧
      (processPackageSection tinyGoFile "t.go" tinyGoContent
          "test").EndLine = tinyGoFile.NameEndPos.line :=
  goChunkPackageChunkLast tinyGoFile "t.go" tinyGoContent NewSymbolTable
    ⟨5, 50⟩ (by decide)

/-! ### C8: the line chunkers partition their file exactly -/

theorem shellCreateChunk_StartLine (d : List String → List String)
    (f : String) (lines : List String) (s e : Nat) (st : SymbolTable) :
    (shellCreateChunk d f lines s e st).1.StartLine = s := rfl

theorem shellCreateChunk_EndLine (d : List String → List String)
    (f : String) (lines : List String) (s e : Nat) (st : SymbolTable) :
    (shellCreateChunk d f lines s e st).1.EndLine = e := rfl

theorem shellChunkLoop_tiles (d : List String → List String)
    (options : ChunkingOptions) (filePath : String) :
    ∀ bound (rest : List String) i pending startLine inFunction
      (st : SymbolTable),
      rest.length ≤ bound →
      startLine + pending.length = i + 1 →
      tiles (ranges (shellChunkLoop d options filePath rest i pending
        startLine inFunction st).1) startLine (i + rest.length) = true := by
  intro bound
  induction bound with
  | zero =>
    intro rest i pending startLine inFunction st hb hinv
    have hrest : rest = [] := by
      cases rest with
      | nil => rfl
      | cons _ _ => simp at hb
    subst hrest
    by_cases hp : pending.length > 0
    · simp only [shellChunkLoop, if_pos hp]
      simp [ranges, tiles, shellCreateChunk]
      omega
    · simp only [shellChunkLoop, if_neg hp]
      simp [ranges, tiles]
      omega
  | succ b ih =>
    intro rest i pending startLine inFunction st hb hinv
    match rest with
    | [] =>
      by_cases hp : pending.length > 0
      · simp only [shellChunkLoop, if_pos hp]
        simp [ranges, tiles, shellCreateChunk]
        omega
      · simp only [shellChunkLoop, if_neg hp]
        simp [ranges, tiles]
        omega
    | line :: rest' =>
      rw [shellChunkLoop]
      simp only [List.length_cons] at hb ⊢
      by_cases hfb : (isFunctionStart (trimStr line) && !inFunction) = true
      · by_cases hp : pending.length > 0
        · by_cases hcl : (trimStr line == "\x7d" ||
              strStartsWith (trimStr line) "\x7d #") = true
          · simp [hfb, hp, hcl, tiles, ranges, shellCreateChunk]
            refine ⟨by omega, ?_⟩
            convert ih rest' (i + 1) [] (i + 2) false _ (by omega)
              (by simp) using 2
            omega
          · simp [hfb, hp, hcl, tiles, ranges, shellCreateChunk]
            refine ⟨by omega, ?_⟩
            convert ih rest' (i + 1) [line] (i + 1) true _ (by omega)
              (by simp) using 2
            omega
        · have hp0 : pending.length = 0 := by omega
          by_cases hcl : (trimStr line == "\x7d" ||
              strStartsWith (trimStr line) "\x7d #") = true
          · simp [hfb, hp0, hcl, tiles, ranges, shellCreateChunk]
            refine ⟨⟨by omega, by omega⟩, ?_⟩
            convert ih rest' (i + 1) [] (i + 2) false _ (by omega)
              (by simp) using 2
            omega
          · simp [hfb, hp0, hcl, tiles, ranges, shellCreateChunk]
            have hsl : startLine = i + 1 := by omega
            subst hsl
            convert ih rest' (i + 1) [line] (i + 1) true _ (by omega)
              (by simp) using 2
            omega
      · by_cases hcl : (inFunction && (trimStr line == "\x7d" ||
            strStartsWith (trimStr line) "\x7d #")) = true
        · simp [hfb, hcl, tiles, ranges, shellCreateChunk]
          refine ⟨by omega, ?_⟩
          convert ih rest' (i + 1) [] (i + 2) false _ (by omega)
            (by simp) using 2
          omega
        · by_cases hmx : (!inFunction &&
              decide ((pending ++ [line]).length ≥ options.MaxChunkSize)) = true
          · simp only [Bool.and_eq_true, Bool.not_eq_true',
              decide_eq_true_eq] at hmx
            obtain ⟨hm1, hm2⟩ := hmx
            simp only [hm1, Bool.not_false, Bool.and_true,
              Bool.not_eq_true] at hfb
            simp only [List.length_append, List.length_cons,
              List.length_nil] at hm2
            simp [hfb, hm1, hm2, tiles, ranges, shellCreateChunk]
            refine ⟨by omega, ?_⟩
            convert ih rest' (i + 1) [] (i + 2) false _ (by omega)
              (by simp) using 2
            omega
          · simp only [Bool.and_eq_true, Bool.not_eq_true',
              decide_eq_true_eq, not_and, List.length_append,
              List.length_cons, List.length_nil] at hmx
            have hcond : ¬(inFunction = false ∧
                options.MaxChunkSize ≤ pending.length + 1) := by
              rintro ⟨h1, h2⟩
              exact hmx h1 (by omega)
            simp [hfb, hcl, hcond, tiles, ranges, shellCreateChunk]
            convert ih rest' (i + 1) (pending ++ [line]) startLine
              inFunction _ (by omega) (by simp; omega) using 2
            omega

theorem dockerChunkLoop_tiles (d : List String → List String)
    (options : ChunkingOptions) (filePath : String) :
    ∀ bound (rest : List String) i pending startLine (st : SymbolTable),
      rest.length ≤ bound →
      startLine + pending.length = i + 1 →
      tiles (ranges (dockerChunkLoop d options filePath rest i pending
        startLine st).1) startLine (i + rest.length) = true := by
  intro bound
  induction bound with
  | zero =>
    intro rest i pending startLine st hb hinv
    have hrest : rest = [] := by
      cases rest with
      | nil => rfl
      | cons _ _ => simp at hb
    subst hrest
    by_cases hp : pending.length > 0
    · simp only [dockerChunkLoop, if_pos hp]
      simp [ranges, tiles, dockerCreateChunk]
      omega
    · simp only [dockerChunkLoop, if_neg hp]
      simp [ranges, tiles]
      omega
  | succ b ih =>
    intro rest i pending startLine st hb hinv
    match rest with
    | [] =>
      by_cases hp : pending.length > 0
      · simp only [dockerChunkLoop, if_pos hp]
        simp [ranges, tiles, dockerCreateChunk]
        omega
      · simp only [dockerChunkLoop, if_neg hp]
        simp [ranges, tiles]
        omega
    | line :: rest' =>
      rw [dockerChunkLoop]
      simp only [List.length_cons] at hb ⊢
      by_cases hsk : (pending.length == 0 && (trimStr line == "" ||
          strStartsWith (trimStr line) "#")) = true
      · simp only [hsk, if_true]
        convert ih rest' (i + 1) (pending ++ [line]) startLine _
          (by omega) (by simp; omega) using 2
        omega
      · by_cases hfbd : (isChunkBoundary (trimStr line) &&
            decide (pending.length > 0)) = true
        · by_cases hmx : options.MaxChunkSize ≤ 1
          · have hpp : 0 < pending.length := by
              simp only [Bool.and_eq_true, decide_eq_true_eq] at hfbd
              exact hfbd.2
            simp [hsk, hfbd, hmx, tiles, ranges, dockerCreateChunk]
            refine ⟨by omega, ?_⟩
            convert ih rest' (i + 1) [] (i + 2) _ (by omega) (by simp)
              using 2
            omega
          · have hpp : 0 < pending.length := by
              simp only [Bool.and_eq_true, decide_eq_true_eq] at hfbd
              exact hfbd.2
            simp [hsk, hfbd, hmx, tiles, ranges, dockerCreateChunk]
            refine ⟨by omega, ?_⟩
            convert ih rest' (i + 1) [line] (i + 1) _ (by omega) (by simp)
              using 2
            omega
        · by_cases hmx : options.MaxChunkSize ≤ pending.length + 1
          · simp [hsk, hfbd, hmx, tiles, ranges, dockerCreateChunk]
            refine ⟨by omega, ?_⟩
            convert ih rest' (i + 1) [] (i + 2) _ (by omega) (by simp)
              using 2
            omega
          · simp [hsk, hfbd, hmx, tiles, ranges, dockerCreateChunk]
            convert ih rest' (i + 1) (pending ++ [line]) startLine _
              (by omega) (by simp; omega) using 2
            omega

theorem genericChunkLoop_ranges (d : List String → List String)
    (filePath language : String) (maxS : Nat) (hpos : 0 < maxS) :
    ∀ bound (lines : List String) i (st : SymbolTable),
      lines.length ≤ bound →
      ranges (genericChunkLoop d filePath language maxS lines i st).1 =
        windowRanges maxS lines.length i := by
  intro bound
  induction bound with
  | zero =>
    intro lines i st hn
    have : lines = [] := by
      cases lines with
      | nil => rfl
      | cons l ls => simp at hn
    subst this
    simp [genericChunkLoop, ranges, windowRanges]
  | succ b ih =>
    intro lines i st hn
    match lines with
    | [] => simp [genericChunkLoop, ranges, windowRanges]
    | l :: ls =>
      rw [genericChunkLoop]
      simp only [ranges, List.map_cons, List.length_cons]
      rw [windowRanges]
      congr 1
      · simp [List.length_take]
        omega
      · show ranges (genericChunkLoop d filePath language maxS
          (ls.drop (maxS - 1)) (i + maxS) _).1 = _
        rw [ih (ls.drop (maxS - 1)) (i + maxS) _ (by
          simp only [List.length_drop, List.length_cons] at hn ⊢
          omega)]
        simp only [List.length_drop]
        by_cases hge : maxS - 1 ≤ ls.length
        · have hmin : min (maxS - 1) ls.length = maxS - 1 := by omega
          have h2 : i + maxS = i + 1 + (maxS - 1) := by omega
          rw [hmin, h2]
        · have h0 : ls.length - (maxS - 1) = 0 := by omega
          have h0' : ls.length - min (maxS - 1) ls.length = 0 := by omega
          rw [h0, h0']
          simp [windowRanges]

/-- C8: the shell chunker, the Dockerfile chunker, and the generic
fallback chunker each emit chunks whose inclusive line ranges exactly
partition the file's lines: the first chunk starts at line 1, each chunk
starts one past the previous chunk's end, and the last chunk ends at the
file's last line. -/
theorem lineChunkersPartition (d : List String → List String)
    (filePath content : String) (st : SymbolTable)
    (options : ChunkingOptions) (h : 0 < options.MaxChunkSize) :
    (shellChunk d filePath content st options).map
        (fun p => tiles (ranges p.1) 1 (linesOf content).length) =
      .ok true ∧
    (dockerfileChunk d filePath content st options).map
        (fun p => tiles (ranges p.1) 1 (linesOf content).length) =
      .ok true ∧
    (genericChunk d filePath content st options).map
        (fun p => tiles (ranges p.1) 1 (linesOf content).length) =
      .ok true := by
  refine ⟨?_, ?_, ?_⟩
  · show Except.ok (tiles (ranges (shellChunkLoop d options filePath
      (linesOf content) 0 [] 1 false st).1) 1 (linesOf content).length) =
      Except.ok true
    have := shellChunkLoop_tiles d options filePath (linesOf content).length
      (linesOf content) 0 [] 1 false st le_rfl (by simp)
    simpa using this
  · show Except.ok (tiles (ranges (dockerChunkLoop d options filePath
      (linesOf content) 0 [] 1 st).1) 1 (linesOf content).length) =
      Except.ok true
    have := dockerChunkLoop_tiles d options filePath (linesOf content).length
      (linesOf content) 0 [] 1 st le_rfl (by simp)
    simpa using this
  · show Except.ok (tiles (ranges (genericChunkLoop d filePath
      (genericLanguage filePath) options.MaxChunkSize (linesOf content) 0
      st).1) 1 (linesOf content).length) = Except.ok true
    rw [genericChunkLoop_ranges d filePath (genericLanguage filePath)
      options.MaxChunkSize h (linesOf content).length (linesOf content) 0
      st le_rfl]
    have := windowRanges_tiles options.MaxChunkSize
      (linesOf content).length (linesOf content).length 0 le_rfl
    simpa using this

/-- Witness for C8 at a concrete three-line input. -/
theorem lineChunkersPartition_witness :
    (shellChunk List.dedup "f.sh" "a\nb\nc" NewSymbolTable ⟨1, 2⟩).map
        (fun p => tiles (ranges p.1) 1 (linesOf "a\nb\nc").length) =
      .ok true ∧
    (dockerfileChunk List.dedup "f.sh" "a\nb\nc" NewSymbolTable
        ⟨1, 2⟩).map
        (fun p => tiles (ranges p.1) 1 (linesOf "a\nb\nc").length) =
      .ok true ∧
    (genericChunk List.dedup "f.sh" "a\nb\nc" NewSymbolTable ⟨1, 2⟩).map
        (fun p => tiles (ranges p.1) 1 (linesOf "a\nb\nc").length) =
      .ok true :=
  lineChunkersPartition List.dedup "f.sh" "a\nb\nc" NewSymbolTable ⟨1, 2⟩
    (by decide)

/-! ### C9: the boundary-cap scenario (21 lines, `MaxChunkSize = 10`) -/

/-- The line counts of a chunk list. -/
def chunkLens (chunks : List Chunk) : List Nat :=
  chunks.map (fun c => c.EndLine + 1 - c.StartLine)

/-- The chunk-size sequence produced by pure block accumulation: with `p`
lines already pending and `r` lines remaining, a chunk of `p + 1` lines
is flushed whenever the pending block reaches `MaxChunkSize`. -/
def accLens (maxS : Nat) : Nat → Nat → List Nat
  | 0, p => if 0 < p then [p] else []
  | r + 1, p =>
    if maxS ≤ p + 1 then (p + 1) :: accLens maxS r 0
    else accLens maxS r (p + 1)

theorem shellChunkLoop_lens (d : List String → List String)
    (options : ChunkingOptions) (filePath : String) :
    ∀ bound (rest : List String) i pending startLine (st : SymbolTable),
      rest.length ≤ bound →
      startLine + pending.length = i + 1 →
      (∀ line ∈ rest, isFunctionStart (trimStr line) = false) →
      chunkLens (shellChunkLoop d options filePath rest i pending
        startLine false st).1 =
        accLens options.MaxChunkSize rest.length pending.length := by
  intro bound
  induction bound with
  | zero =>
    intro rest i pending startLine st hb hinv hm
    have hrest : rest = [] := by
      cases rest with
      | nil => rfl
      | cons _ _ => simp at hb
    subst hrest
    by_cases hp : pending.length > 0
    · simp only [shellChunkLoop, if_pos hp]
      simp [chunkLens, accLens, shellCreateChunk, hp]
      omega
    · simp only [shellChunkLoop, if_neg hp]
      simp [chunkLens, accLens, hp]
  | succ b ih =>
    intro rest i pending startLine st hb hinv hm
    match rest with
    | [] =>
      by_cases hp : pending.length > 0
      · simp only [shellChunkLoop, if_pos hp]
        simp [chunkLens, accLens, shellCreateChunk, hp]
        omega
      · simp only [shellChunkLoop, if_neg hp]
        simp [chunkLens, accLens, hp]
    | line :: rest' =>
      have hfs : isFunctionStart (trimStr line) = false :=
        hm line (List.mem_cons_self _ _)
      have hm' : ∀ l ∈ rest', isFunctionStart (trimStr l) = false :=
        fun l hl => hm l (List.mem_cons_of_mem _ hl)
      rw [shellChunkLoop]
      simp only [List.length_cons] at hb ⊢
      rw [accLens]
      by_cases hmx : options.MaxChunkSize ≤ pending.length + 1
      · simp [hfs, hmx, chunkLens, shellCreateChunk]
        refine ⟨by omega, ?_⟩
        convert ih rest' (i + 1) [] (i + 2) _ (by omega) (by simp) hm'
          using 2 <;> simp [chunkLens]
      · simp [hfs, hmx, chunkLens, shellCreateChunk]
        convert ih rest' (i + 1) (pending ++ [line]) startLine _
          (by omega) (by simp; omega) hm' using 2 <;> simp [chunkLens]

theorem dockerChunkLoop_lens (d : List String → List String)
    (options : ChunkingOptions) (filePath : String)
    (hmax2 : 2 ≤ options.MaxChunkSize) :
    ∀ bound (rest : List String) i pending startLine (st : SymbolTable),
      rest.length ≤ bound →
      startLine + pending.length = i + 1 →
      (∀ line ∈ rest, isChunkBoundary (trimStr line) = false) →
      chunkLens (dockerChunkLoop d options filePath rest i pending
        startLine st).1 =
        accLens options.MaxChunkSize rest.length pending.length := by
  intro bound
  induction bound with
  | zero =>
    intro rest i pending startLine st hb hinv hm
    have hrest : rest = [] := by
      cases rest with
      | nil => rfl
      | cons _ _ => simp at hb
    subst hrest
    by_cases hp : pending.length > 0
    · simp only [dockerChunkLoop, if_pos hp]
      simp [chunkLens, accLens, dockerCreateChunk, hp]
      omega
    · simp only [dockerChunkLoop, if_neg hp]
      simp [chunkLens, accLens, hp]
  | succ b ih =>
    intro rest i pending startLine st hb hinv hm
    match rest with
    | [] =>
      by_cases hp : pending.length > 0
      · simp only [dockerChunkLoop, if_pos hp]
        simp [chunkLens, accLens, dockerCreateChunk, hp]
        omega
      · simp only [dockerChunkLoop, if_neg hp]
        simp [chunkLens, accLens, hp]
    | line :: rest' =>
      have hbd : isChunkBoundary (trimStr line) = false :=
        hm line (List.mem_cons_self _ _)
      have hm' : ∀ l ∈ rest', isChunkBoundary (trimStr l) = false :=
        fun l hl => hm l (List.mem_cons_of_mem _ hl)
      rw [dockerChunkLoop]
      simp only [List.length_cons] at hb ⊢
      rw [accLens]
      by_cases hsk : (pending.length == 0 && (trimStr line == "" ||
          strStartsWith (trimStr line) "#")) = true
      · have hp0 : pending.length = 0 := by
          simp only [Bool.and_eq_true, beq_iff_eq] at hsk
          exact hsk.1
        have hnmx : ¬ options.MaxChunkSize ≤ pending.length + 1 := by omega
        simp only [hsk, if_true, if_neg hnmx]
        convert ih rest' (i + 1) (pending ++ [line]) startLine _
          (by omega) (by simp; omega) hm' using 2 <;> simp [chunkLens]
      · by_cases hmx : options.MaxChunkSize ≤ pending.length + 1
        · simp [hsk, hbd, hmx, chunkLens, dockerCreateChunk]
          refine ⟨by omega, ?_⟩
          convert ih rest' (i + 1) [] (i + 2) _ (by omega) (by simp) hm'
            using 2 <;> simp [chunkLens]
        · simp [hsk, hbd, hmx, chunkLens, dockerCreateChunk]
          convert ih rest' (i + 1) (pending ++ [line]) startLine _
            (by omega) (by simp; omega) hm' using 2 <;> simp [chunkLens]

/-- C9: for every shell or Dockerfile input of exactly 21 lines in which
no line matches a shell function-definition pattern (for the shell
chunker) or an instruction-keyword boundary (for the Dockerfile chunker),
chunking with `MaxChunkSize = 10` yields exactly 3 chunks of 10, 10 and
1 lines. -/
theorem boundaryCapScenario (d : List String → List String)
    (filePath content : String) (st : SymbolTable)
    (options : ChunkingOptions)
    (hlen : (linesOf content).length = 21)
    (hmax : options.MaxChunkSize = 10)
    (hsh : ∀ line ∈ linesOf content, isFunctionStart (trimStr line) = false)
    (hdk : ∀ line ∈ linesOf content, isChunkBoundary (trimStr line) = false) :
    (shellChunk d filePath content st options).map
        (fun p => chunkLens p.1) = .ok [10, 10, 1] ∧
    (dockerfileChunk d filePath content st options).map
        (fun p => chunkLens p.1) = .ok [10, 10, 1] := by
  constructor
  · show Except.ok (chunkLens (shellChunkLoop d options filePath
      (linesOf content) 0 [] 1 false st).1) = Except.ok [10, 10, 1]
    rw [shellChunkLoop_lens d options filePath (linesOf content).length
      (linesOf content) 0 [] 1 st le_rfl (by simp) hsh]
    rw [hlen, hmax]
    rfl
  · show Except.ok (chunkLens (dockerChunkLoop d options filePath
      (linesOf content) 0 [] 1 st).1) = Except.ok [10, 10, 1]
    rw [dockerChunkLoop_lens d options filePath (by omega)
      (linesOf content).length (linesOf content) 0 [] 1 st le_rfl
      (by simp) hdk]
    rw [hlen, hmax]
    rfl

/-- A 21-line input with no structural markers. -/
def plainContent21 : String :=
  String.intercalate "\n" (List.replicate 21 "x")

/-- Witness for C9 at the concrete 21-line marker-free input. -/
theorem boundaryCapScenario_witness :
    (shellChunk List.dedup "f.sh" plainContent21 NewSymbolTable
        ⟨1, 10⟩).map (fun p => chunkLens p.1) = .ok [10, 10, 1] ∧
    (dockerfileChunk List.dedup "f.sh" plainContent21 NewSymbolTable
        ⟨1, 10⟩).map (fun p => chunkLens p.1) = .ok [10, 10, 1] :=
  boundaryCapScenario List.dedup "f.sh" plainContent21 NewSymbolTable
    ⟨1, 10⟩ (by decide) rfl (by decide) (by decide)

/-! ### C2: two-run determinism of the chunkers -/

/-- Agreement of two chunks in every field except the **order** of the
symbol list (IDs, boundaries, contents and token counts equal; symbol
lists equal as sets). -/
def chunkAgreesModSymbols (c₁ c₂ : Chunk) : Prop :=
  c₁.ID = c₂.ID ∧ c₁.FilePath = c₂.FilePath ∧
    c₁.StartLine = c₂.StartLine ∧ c₁.EndLine = c₂.EndLine ∧
    c₁.Content = c₂.Content ∧ c₁.Language = c₂.Language ∧
    c₁.TokenCount = c₂.TokenCount ∧
    (∀ s, s ∈ c₁.Symbols ↔ s ∈ c₂.Symbols)

theorem mem_dedup_iff (d₁ d₂ : List String → List String)
    (h₁ : AdmissibleDedup d₁) (h₂ : AdmissibleDedup d₂) (l : List String)
    (s : String) : s ∈ d₁ l ↔ s ∈ d₂ l := by
  rw [(h₁ l).2 s, ← (h₂ l).2 s]

theorem shellChunkLoop_agrees (d₁ d₂ : List String → List String)
    (h₁ : AdmissibleDedup d₁) (h₂ : AdmissibleDedup d₂)
    (options : ChunkingOptions) (filePath : String) :
    ∀ bound (rest : List String) i pending startLine inFunction
      (st₁ st₂ : SymbolTable), rest.length ≤ bound →
      List.Forall₂ chunkAgreesModSymbols
        (shellChunkLoop d₁ options filePath rest i pending startLine
          inFunction st₁).1
        (shellChunkLoop d₂ options filePath rest i pending startLine
          inFunction st₂).1 := by
  intro bound
  induction bound with
  | zero =>
    intro rest i pending startLine inFunction st₁ st₂ hb
    have hrest : rest = [] := by
      cases rest with
      | nil => rfl
      | cons _ _ => simp at hb
    subst hrest
    by_cases hp : pending.length > 0
    · simp only [shellChunkLoop, if_pos hp]
      refine List.Forall₂.cons
        ⟨rfl, rfl, rfl, rfl, rfl, rfl, rfl, fun s => ?_⟩ List.Forall₂.nil
      exact mem_dedup_iff d₁ d₂ h₁ h₂ _ s
    · simp only [shellChunkLoop, if_neg hp]
      exact List.Forall₂.nil
  | succ b ih =>
    intro rest i pending startLine inFunction st₁ st₂ hb
    match rest with
    | [] =>
      by_cases hp : pending.length > 0
      · simp only [shellChunkLoop, if_pos hp]
        refine List.Forall₂.cons
          ⟨rfl, rfl, rfl, rfl, rfl, rfl, rfl, fun s => ?_⟩ List.Forall₂.nil
        exact mem_dedup_iff d₁ d₂ h₁ h₂ _ s
      · simp only [shellChunkLoop, if_neg hp]
        exact List.Forall₂.nil
    | line :: rest' =>
      rw [shellChunkLoop, shellChunkLoop]
      simp only [List.length_cons] at hb
      by_cases hfb : (isFunctionStart (trimStr line) && !inFunction) = true
      · by_cases hp : pending.length > 0
        · by_cases hcl : (trimStr line == "\x7d" ||
              strStartsWith (trimStr line) "\x7d #") = true
          · simp [hfb, hp, hcl]
            refine ⟨⟨rfl, rfl, rfl, rfl, rfl, rfl, rfl, fun s => ?_⟩,
              ⟨rfl, rfl, rfl, rfl, rfl, rfl, rfl, fun s => ?_⟩,
              ih rest' (i + 1) [] (i + 2) false _ _ (by omega)⟩
            · exact mem_dedup_iff d₁ d₂ h₁ h₂ _ s
            · exact mem_dedup_iff d₁ d₂ h₁ h₂ _ s
          · simp [hfb, hp, hcl]
            refine ⟨⟨rfl, rfl, rfl, rfl, rfl, rfl, rfl, fun s => ?_⟩,
              ih rest' (i + 1) [line] (i + 1) true _ _ (by omega)⟩
            exact mem_dedup_iff d₁ d₂ h₁ h₂ _ s
        · have hp0 : pending.length = 0 := by omega
          by_cases hcl : (trimStr line == "\x7d" ||
              strStartsWith (trimStr line) "\x7d #") = true
          · simp [hfb, hp0, hcl]
            refine ⟨⟨rfl, rfl, rfl, rfl, rfl, rfl, rfl, fun s => ?_⟩,
              ih rest' (i + 1) [] (i + 2) false _ _ (by omega)⟩
            exact mem_dedup_iff d₁ d₂ h₁ h₂ _ s
          · simp [hfb, hp0, hcl]
            exact ih rest' (i + 1) [line] (i + 1) true _ _ (by omega)
      · by_cases hcl : (inFunction && (trimStr line == "\x7d" ||
            strStartsWith (trimStr line) "\x7d #")) = true
        · simp [hfb, hcl]
          refine ⟨⟨rfl, rfl, rfl, rfl, rfl, rfl, rfl, fun s => ?_⟩,
            ih rest' (i + 1) [] (i + 2) false _ _ (by omega)⟩
          exact mem_dedup_iff d₁ d₂ h₁ h₂ _ s
        · by_cases hinF : inFunction = true
          · subst hinF
            simp only [Bool.true_and] at hcl
            simp [hcl]
            exact ih rest' (i + 1) (pending ++ [line]) startLine true st₁
              st₂ (by omega)
          · have hinF' : inFunction = false := by
              cases inFunction
              · rfl
              · exact absurd rfl hinF
            subst hinF'
            have hfs : isFunctionStart (trimStr line) = false := by
              simpa using hfb
            by_cases hmx : options.MaxChunkSize ≤ pending.length + 1
            · simp [hfs, hmx]
              refine ⟨⟨rfl, rfl, rfl, rfl, rfl, rfl, rfl, fun s => ?_⟩,
                ih rest' (i + 1) [] (i + 2) false _ _ (by omega)⟩
              exact mem_dedup_iff d₁ d₂ h₁ h₂ _ s
            · simp [hfs, hmx]
              exact ih rest' (i + 1) (pending ++ [line]) startLine false
                st₁ st₂ (by omega)

/-- Keep-first deduplication is one admissible map iteration order. -/
theorem dedup_admissible : AdmissibleDedup List.dedup :=
  fun l => ⟨List.nodup_dedup l, fun _ => List.mem_dedup⟩

/-- The reversed deduplication order. -/
def dedupRev (l : List String) : List String :=
  (List.dedup l).reverse

theorem dedupRev_admissible : AdmissibleDedup dedupRev :=
  fun l => ⟨by simp [dedupRev, List.nodup_dedup],
    fun x => by simp [dedupRev, List.mem_dedup]⟩

/-- A shell script whose first chunk contains two function-definition
patterns (`outer` and the nested `inner`), so its deduplicated symbol
list has two elements whose order depends on Go's map iteration. -/
def nestedShellContent : String := "function outer() \x7b\ninner() \x7b\n\x7d"

/-- C2 (counterexample): two runs of the shell chunker on the identical
input can differ byte-wise — the symbol list of the first chunk is
`["outer", "inner"]` under one admissible map iteration order and
`["inner", "outer"]` under another, so the chunk sequences are not
byte-identical across runs. -/
theorem shellChunk_not_bytewise_deterministic :
    AdmissibleDedup List.dedup ∧ AdmissibleDedup dedupRev ∧
    (shellChunk List.dedup "f.sh" nestedShellContent NewSymbolTable
        ⟨1, 50⟩).toOption.map (fun p => p.1.map (fun c => c.Symbols)) =
      some [["outer", "inner"]] ∧
    (shellChunk dedupRev "f.sh" nestedShellContent NewSymbolTable
        ⟨1, 50⟩).toOption.map (fun p => p.1.map (fun c => c.Symbols)) =
      some [["inner", "outer"]] ∧
    shellChunk List.dedup "f.sh" nestedShellContent NewSymbolTable
        ⟨1, 50⟩ ≠
      shellChunk dedupRev "f.sh" nestedShellContent NewSymbolTable
        ⟨1, 50⟩ := by
  refine ⟨dedup_admissible, dedupRev_admissible, by decide, by decide,
    fun h => ?_⟩
  have h2 := congrArg
    (fun r : Except String (List Chunk × SymbolTable) =>
      r.toOption.map (fun p => p.1.map (fun c => c.Symbols))) h
  exact absurd h2 (by decide)

theorem dockerChunkLoop_agrees (d₁ d₂ : List String → List String)
    (h₁ : AdmissibleDedup d₁) (h₂ : AdmissibleDedup d₂)
    (options : ChunkingOptions) (filePath : String) :
    ∀ bound (rest : List String) i pending startLine
      (st₁ st₂ : SymbolTable), rest.length ≤ bound →
      List.Forall₂ chunkAgreesModSymbols
        (dockerChunkLoop d₁ options filePath rest i pending startLine
          st₁).1
        (dockerChunkLoop d₂ options filePath rest i pending startLine
          st₂).1 := by
  intro bound
  induction bound with
  | zero =>
    intro rest i pending startLine st₁ st₂ hb
    have hrest : rest = [] := by
      cases rest with
      | nil => rfl
      | cons _ _ => simp at hb
    subst hrest
    by_cases hp : pending.length > 0
    · simp only [dockerChunkLoop, if_pos hp]
      refine List.Forall₂.cons
        ⟨rfl, rfl, rfl, rfl, rfl, rfl, rfl, fun s => ?_⟩ List.Forall₂.nil
      exact mem_dedup_iff d₁ d₂ h₁ h₂ _ s
    · simp only [dockerChunkLoop, if_neg hp]
      exact List.Forall₂.nil
  | succ b ih =>
    intro rest i pending startLine st₁ st₂ hb
    match rest with
    | [] =>
      by_cases hp : pending.length > 0
      · simp only [dockerChunkLoop, if_pos hp]
        refine List.Forall₂.cons
          ⟨rfl, rfl, rfl, rfl, rfl, rfl, rfl, fun s => ?_⟩ List.Forall₂.nil
        exact mem_dedup_iff d₁ d₂ h₁ h₂ _ s
      · simp only [dockerChunkLoop, if_neg hp]
        exact List.Forall₂.nil
    | line :: rest' =>
      rw [dockerChunkLoop, dockerChunkLoop]
      simp only [List.length_cons] at hb
      by_cases hsk : (pending.length == 0 && (trimStr line == "" ||
          strStartsWith (trimStr line) "#")) = true
      · simp only [hsk, if_true]
        exact ih rest' (i + 1) (pending ++ [line]) startLine _ _ (by omega)
      · by_cases hfbd : (isChunkBoundary (trimStr line) &&
            decide (pending.length > 0)) = true
        · by_cases hmx : options.MaxChunkSize ≤ 1
          · simp [hsk, hfbd, hmx]
            refine ⟨⟨rfl, rfl, rfl, rfl, rfl, rfl, rfl, fun s => ?_⟩,
              ⟨rfl, rfl, rfl, rfl, rfl, rfl, rfl, fun s => ?_⟩,
              ih rest' (i + 1) [] (i + 2) _ _ (by omega)⟩
            · exact mem_dedup_iff d₁ d₂ h₁ h₂ _ s
            · exact mem_dedup_iff d₁ d₂ h₁ h₂ _ s
          · simp [hsk, hfbd, hmx]
            refine ⟨⟨rfl, rfl, rfl, rfl, rfl, rfl, rfl, fun s => ?_⟩,
              ih rest' (i + 1) [line] (i + 1) _ _ (by omega)⟩
            exact mem_dedup_iff d₁ d₂ h₁ h₂ _ s
        · by_cases hmx : options.MaxChunkSize ≤ pending.length + 1
          · simp [hsk, hfbd, hmx]
            refine ⟨⟨rfl, rfl, rfl, rfl, rfl, rfl, rfl, fun s => ?_⟩,
              ih rest' (i + 1) [] (i + 2) _ _ (by omega)⟩
            exact mem_dedup_iff d₁ d₂ h₁ h₂ _ s
          · simp [hsk, hfbd, hmx]
            exact ih rest' (i + 1) (pending ++ [line]) startLine _ _
              (by omega)

theorem genericChunkLoop_agrees (d₁ d₂ : List String → List String)
    (h₁ : AdmissibleDedup d₁) (h₂ : AdmissibleDedup d₂)
    (filePath language : String) (maxS : Nat) :
    ∀ bound (lines : List String) i (st₁ st₂ : SymbolTable),
      lines.length ≤ bound →
      List.Forall₂ chunkAgreesModSymbols
        (genericChunkLoop d₁ filePath language maxS lines i st₁).1
        (genericChunkLoop d₂ filePath language maxS lines i st₂).1 := by
  intro bound
  induction bound with
  | zero =>
    intro lines i st₁ st₂ hn
    have : lines = [] := by
      cases lines with
      | nil => rfl
      | cons l ls => simp at hn
    subst this
    simp only [genericChunkLoop]
    exact List.Forall₂.nil
  | succ b ih =>
    intro lines i st₁ st₂ hn
    match lines with
    | [] =>
      simp only [genericChunkLoop]
      exact List.Forall₂.nil
    | l :: ls =>
      rw [genericChunkLoop, genericChunkLoop]
      refine List.Forall₂.cons
        ⟨rfl, rfl, rfl, rfl, rfl, rfl, rfl, fun s => ?_⟩
        (ih (ls.drop (maxS - 1)) (i + maxS) _ _ (by
          simp only [List.length_drop, List.length_cons] at hn ⊢
          omega))
      exact mem_dedup_iff d₁ d₂ h₁ h₂ _ s

/-- C2 (amended): chunking identical `(path, content, options)` twice is
deterministic in everything except the order inside each chunk\x27s
deduplicated symbol list.  For the shell, Dockerfile and generic chunkers
(which deduplicate symbols through a Go map) the two runs produce equally
many chunks, and chunk-by-chunk the IDs, paths, line ranges, contents,
languages and token counts are identical, with equal symbol sets; the Go
chunker performs no map-based deduplication and its two runs are fully
identical.  (The generic chunker part assumes a positive `MaxChunkSize`,
as its Go window loop does not terminate at 0.) -/
theorem chunkersDeterministicModSymbols
    (d₁ d₂ : List String → List String)
    (h₁ : AdmissibleDedup d₁) (h₂ : AdmissibleDedup d₂)
    (filePath content : String) (st : SymbolTable)
    (options : ChunkingOptions) (parsed : Option GoFile) :
    (∃ out₁ out₂,
      shellChunk d₁ filePath content st options = .ok out₁ ∧
      shellChunk d₂ filePath content st options = .ok out₂ ∧
      List.Forall₂ chunkAgreesModSymbols out₁.1 out₂.1) ∧
    (∃ out₁ out₂,
      dockerfileChunk d₁ filePath content st options = .ok out₁ ∧
      dockerfileChunk d₂ filePath content st options = .ok out₂ ∧
      List.Forall₂ chunkAgreesModSymbols out₁.1 out₂.1) ∧
    (0 < options.MaxChunkSize →
      ∃ out₁ out₂,
        genericChunk d₁ filePath content st options = .ok out₁ ∧
        genericChunk d₂ filePath content st options = .ok out₂ ∧
        List.Forall₂ chunkAgreesModSymbols out₁.1 out₂.1) ∧
    (∀ out₁ out₂,
      goChunk parsed filePath content st options = .ok out₁ →
      goChunk parsed filePath content st options = .ok out₂ →
      out₁ = out₂) := by
  refine ⟨⟨_, _, rfl, rfl, ?_⟩, ⟨_, _, rfl, rfl, ?_⟩,
    fun _ => ⟨_, _, rfl, rfl, ?_⟩, fun out₁ out₂ he₁ he₂ => ?_⟩
  · exact shellChunkLoop_agrees d₁ d₂ h₁ h₂ options filePath
      (linesOf content).length (linesOf content) 0 [] 1 false st st le_rfl
  · exact dockerChunkLoop_agrees d₁ d₂ h₁ h₂ options filePath
      (linesOf content).length (linesOf content) 0 [] 1 st st le_rfl
  · exact genericChunkLoop_agrees d₁ d₂ h₁ h₂ filePath
      (genericLanguage filePath) options.MaxChunkSize
      (linesOf content).length (linesOf content) 0 st st le_rfl
  · exact Except.ok.inj (he₁.symm.trans he₂)

/-- Witness for C2\x27s amended statement: both runs at the
nested-function script, under the two admissible dedup orders. -/
theorem chunkersDeterministicModSymbols_witness :
    (∃ out₁ out₂,
      shellChunk List.dedup "f.sh" nestedShellContent NewSymbolTable
        ⟨1, 50⟩ = .ok out₁ ∧
      shellChunk dedupRev "f.sh" nestedShellContent NewSymbolTable
        ⟨1, 50⟩ = .ok out₂ ∧
      List.Forall₂ chunkAgreesModSymbols out₁.1 out₂.1) ∧
    (∃ out₁ out₂,
      dockerfileChunk List.dedup "f.sh" nestedShellContent NewSymbolTable
        ⟨1, 50⟩ = .ok out₁ ∧
      dockerfileChunk dedupRev "f.sh" nestedShellContent NewSymbolTable
        ⟨1, 50⟩ = .ok out₂ ∧
      List.Forall₂ chunkAgreesModSymbols out₁.1 out₂.1) ∧
    (0 < (⟨1, 50⟩ : ChunkingOptions).MaxChunkSize →
      ∃ out₁ out₂,
        genericChunk List.dedup "f.sh" nestedShellContent NewSymbolTable
          ⟨1, 50⟩ = .ok out₁ ∧
        genericChunk dedupRev "f.sh" nestedShellContent NewSymbolTable
          ⟨1, 50⟩ = .ok out₂ ∧
        List.Forall₂ chunkAgreesModSymbols out₁.1 out₂.1) ∧
    (∀ out₁ out₂,
      goChunk none "f.sh" nestedShellContent NewSymbolTable ⟨1, 50⟩ =
        .ok out₁ →
      goChunk none "f.sh" nestedShellContent NewSymbolTable ⟨1, 50⟩ =
        .ok out₂ →
      out₁ = out₂) :=
  chunkersDeterministicModSymbols List.dedup dedupRev dedup_admissible
    dedupRev_admissible "f.sh" nestedShellContent NewSymbolTable
    ⟨1, 50⟩ none

/-! ### The relationship map: lookup characterisation -/

/-- Lookup in the `relatedChunks` strength map. -/
def lookupN (m : List (String × Nat)) (id : String) : Option Nat :=
  match m with
  | [] => none
  | (k, v) :: rest => if k == id then some v else lookupN rest id

/-- The strengths a pair list proposes for one candidate. -/
def propStrengths (ps : List (String × Nat)) (id : String) : List Nat :=
  (ps.filter (fun p => p.1 == id)).map Prod.snd

/-- Maximum of a strength list (0 when empty). -/
def maxOf (ss : List Nat) : Nat :=
  ss.foldl max 0

/-- The concatenated proposal pairs of the five max-bump rule phases. -/
def bumpPairs (st : SymbolTable) (cc : Chunk) : List (String × Nat) :=
  rule1pairs st cc ++ rule2pairs st cc ++ rule3apairs st cc ++
    rule3bpairs st cc ++ rule4pairs st cc ++ rule5pairs st cc

theorem lookupN_bumpStrength (m : List (String × Nat)) (id id' : String)
    (s : Nat) :
    lookupN (bumpStrength m id s) id' =
      if id' = id then some (max ((lookupN m id').getD 0) s)
      else lookupN m id' := by
  induction m with
  | nil =>
    by_cases h : id' = id
    · subst h
      simp [bumpStrength, lookupN]
    · simp [bumpStrength, lookupN, h, Ne.symm h]
  | cons p rest ih =>
    obtain ⟨k, v⟩ := p
    by_cases hk : k = id
    · subst hk
      by_cases h : id' = k
      · subst h
        simp [bumpStrength, lookupN]
      · simp [bumpStrength, lookupN, h, Ne.symm h]
    · by_cases h : k = id'
      · subst h
        simp [bumpStrength, lookupN, hk]
      · simp [bumpStrength, lookupN, hk, h, ih]

theorem lookupN_bumpList (ps : List (String × Nat)) :
    ∀ (m : List (String × Nat)) (id : String),
      lookupN (bumpList m ps) id =
        (propStrengths ps id).foldl
          (fun acc s => some (max (acc.getD 0) s)) (lookupN m id) := by
  induction ps with
  | nil => intro m id; rfl
  | cons p rest ih =>
    intro m id
    show lookupN (bumpList (bumpStrength m p.1 p.2) rest) id = _
    rw [ih]
    by_cases h : p.1 = id
    · have : propStrengths (p :: rest) id =
          p.2 :: propStrengths rest id := by
        simp [propStrengths, List.filter_cons, h]
      rw [this]
      simp only [List.foldl_cons]
      rw [lookupN_bumpStrength]
      simp [h.symm]
    · have : propStrengths (p :: rest) id = propStrengths rest id := by
        simp [propStrengths, List.filter_cons, h]
      rw [this]
      rw [lookupN_bumpStrength]
      have : ¬ id = p.1 := fun hh => h hh.symm
      simp [this]

theorem foldl_max_eq (l : List Nat) : ∀ a, l.foldl max a = max a (maxOf l) := by
  induction l with
  | nil => intro a; simp [maxOf]
  | cons x xs ih =>
    intro a
    show xs.foldl max (max a x) = _
    rw [ih (max a x)]
    have : maxOf (x :: xs) = max x (maxOf xs) := by
      show xs.foldl max (max 0 x) = _
      rw [ih (max 0 x)]
      omega
    rw [this]
    omega

theorem maxOf_cons (x : Nat) (xs : List Nat) :
    maxOf (x :: xs) = max x (maxOf xs) := by
  show xs.foldl max (max 0 x) = _
  rw [foldl_max_eq]
  omega

theorem foldl_opt_some (rest : List Nat) :
    ∀ v, rest.foldl (fun acc s => some (max (acc.getD 0) s)) (some v) =
      some (rest.foldl max v) := by
  induction rest with
  | nil => intro v; rfl
  | cons x xs ih =>
    intro v
    show xs.foldl _ (some (max v x)) = _
    rw [ih (max v x)]
    rfl

theorem foldl_opt_max (ss : List Nat) (o : Option Nat) :
    ss.foldl (fun acc s => some (max (acc.getD 0) s)) o =
      match ss with
      | [] => o
      | _ :: _ => some (max (o.getD 0) (maxOf ss)) := by
  match ss with
  | [] => rfl
  | s :: rest =>
    show rest.foldl _ (some (max (o.getD 0) s)) = _
    rw [foldl_opt_some, foldl_max_eq, maxOf_cons]
    have : max (max (o.getD 0) s) (maxOf rest) =
        max (o.getD 0) (max s (maxOf rest)) := by omega
    rw [this]

theorem lookupN_append (m₁ m₂ : List (String × Nat)) (id : String) :
    lookupN (m₁ ++ m₂) id =
      match lookupN m₁ id with
      | some v => some v
      | none => lookupN m₂ id := by
  induction m₁ with
  | nil => rfl
  | cons p rest ih =>
    obtain ⟨k, v⟩ := p
    by_cases h : k = id
    · subst h
      simp [lookupN]
    · simp [lookupN, h, ih]

theorem find?_isSome_iff_lookupN (m : List (String × Nat)) (id : String) :
    (m.find? (fun p => p.1 == id)).isSome = (lookupN m id).isSome := by
  induction m with
  | nil => rfl
  | cons p rest ih =>
    obtain ⟨k, v⟩ := p
    by_cases h : k = id
    · subst h
      simp [lookupN, List.find?_cons]
    · simp [lookupN, List.find?_cons, h, ih]

theorem lookupN_insertIfAbsent (m : List (String × Nat)) (x : String)
    (w : Nat) (id : String) :
    lookupN (insertIfAbsent m x w) id =
      match lookupN m id with
      | some v => some v
      | none => if id = x then some w else none := by
  unfold insertIfAbsent
  by_cases hx : (m.find? (fun p => p.1 == x)).isSome
  · rw [if_pos hx]
    rw [find?_isSome_iff_lookupN] at hx
    cases hv : lookupN m id with
    | some v => rfl
    | none =>
      by_cases h : id = x
      · subst h
        rw [hv] at hx
        simp at hx
      · simp [h]
  · rw [if_neg hx]
    rw [lookupN_append]
    cases hv : lookupN m id with
    | some v => rfl
    | none =>
      by_cases h : id = x
      · subst h
        simp [lookupN]
      · have h' : ¬ x = id := fun hh => h hh.symm
        simp [lookupN, h, h']

theorem lookupN_insertFold (w : Nat) (W : List String) :
    ∀ (m : List (String × Nat)) (id : String),
      lookupN (W.foldl (fun acc x => insertIfAbsent acc x w) m) id =
        match lookupN m id with
        | some v => some v
        | none => if id ∈ W then some w else none := by
  induction W with
  | nil =>
    intro m id
    cases hv : lookupN m id
    · simp [hv]
    · simp [hv]
  | cons x W' ih =>
    intro m id
    show lookupN (W'.foldl _ (insertIfAbsent m x w)) id = _
    rw [ih]
    rw [lookupN_insertIfAbsent]
    cases hv : lookupN m id with
    | some v => rfl
    | none =>
      by_cases h : id = x
      · subst h
        simp
      · simp [h, List.mem_cons]

theorem relatedChunksMap_eq (st : SymbolTable) (cc : Chunk) :
    relatedChunksMap st cc =
      (rule6ids st cc).foldl
        (fun acc id => insertIfAbsent acc id RelationWeak)
        (bumpList [] (bumpPairs st cc)) := by
  simp [relatedChunksMap, bumpPairs, bumpList, List.foldl_append]

/-- The final strength of each candidate in the `relatedChunks` map: the
maximum over all strengths the max-bump rules (1–5) proposed for it, or
`RelationWeak` when only the same-package rule proposed it — never an
additive combination. -/
theorem lookupN_relatedChunksMap (st : SymbolTable) (cc : Chunk)
    (id : String) :
    lookupN (relatedChunksMap st cc) id =
      match propStrengths (bumpPairs st cc) id with
      | [] => if id ∈ rule6ids st cc then some RelationWeak else none
      | s :: ss => some (maxOf (s :: ss)) := by
  rw [relatedChunksMap_eq, lookupN_insertFold, lookupN_bumpList,
    foldl_opt_max]
  cases hp : propStrengths (bumpPairs st cc) id with
  | nil => rfl
  | cons s ss =>
    show some (max ((lookupN ([] : List (String × Nat)) id).getD 0) _) = _
    simp [lookupN]

/-! ### Nodup keys of the relationship map, and sortedness transfer -/

def keysNodup (m : List (String × Nat)) : Prop :=
  (m.map Prod.fst).Nodup

theorem lookupN_eq_none_iff (m : List (String × Nat)) (id : String) :
    lookupN m id = none ↔ id ∉ m.map Prod.fst := by
  induction m with
  | nil => simp [lookupN]
  | cons p rest ih =>
    obtain ⟨k, v⟩ := p
    by_cases h : k = id
    · subst h
      simp [lookupN]
    · have h' : ¬ id = k := fun hh => h hh.symm
      simp only [lookupN, beq_iff_eq, h, if_false, List.map_cons,
        List.mem_cons, not_or]
      rw [ih]
      exact ⟨fun hh => ⟨h', hh⟩, fun hh => hh.2⟩

theorem keys_bumpStrength (m : List (String × Nat)) (id : String)
    (s : Nat) :
    (bumpStrength m id s).map Prod.fst =
      if id ∈ m.map Prod.fst then m.map Prod.fst
      else m.map Prod.fst ++ [id] := by
  induction m with
  | nil => simp [bumpStrength]
  | cons p rest ih =>
    obtain ⟨k, v⟩ := p
    by_cases h : k = id
    · subst h
      simp [bumpStrength]
    · have h' : ¬ id = k := fun hh => h hh.symm
      simp only [bumpStrength, beq_iff_eq, h, if_false, List.map_cons,
        List.mem_cons]
      rw [ih]
      by_cases h2 : id ∈ rest.map Prod.fst
      · simp [h2, h']
      · simp [h2, h']

theorem keysNodup_bumpStrength (m : List (String × Nat)) (id : String)
    (s : Nat) (h : keysNodup m) : keysNodup (bumpStrength m id s) := by
  unfold keysNodup
  rw [keys_bumpStrength]
  by_cases h2 : id ∈ m.map Prod.fst
  · simpa [h2] using h
  · rw [if_neg h2]
    refine List.Nodup.append h (List.nodup_singleton _) ?_
    intro a ha hb
    simp at hb
    subst hb
    exact h2 ha

theorem keysNodup_bumpList (ps : List (String × Nat)) :
    ∀ m, keysNodup m → keysNodup (bumpList m ps) := by
  induction ps with
  | nil => intro m h; exact h
  | cons p rest ih =>
    intro m h
    exact ih _ (keysNodup_bumpStrength m p.1 p.2 h)

theorem keysNodup_insertIfAbsent (m : List (String × Nat)) (x : String)
    (w : Nat) (h : keysNodup m) : keysNodup (insertIfAbsent m x w) := by
  unfold insertIfAbsent
  by_cases hx : (m.find? (fun p => p.1 == x)).isSome
  · simpa [hx] using h
  · rw [if_neg hx]
    rw [find?_isSome_iff_lookupN] at hx
    have hnone : lookupN m x = none := by
      cases hv : lookupN m x
      · rfl
      · rw [hv] at hx
        simp at hx
    have hmem : x ∉ m.map Prod.fst := (lookupN_eq_none_iff m x).1 hnone
    unfold keysNodup
    simp only [List.map_append]
    refine List.Nodup.append h (List.nodup_singleton _) ?_
    intro a ha hb
    simp at hb
    subst hb
    exact hmem ha

theorem keysNodup_insertFold (w : Nat) (W : List String) :
    ∀ m, keysNodup m →
      keysNodup (W.foldl (fun acc x => insertIfAbsent acc x w) m) := by
  induction W with
  | nil => intro m h; exact h
  | cons x W' ih =>
    intro m h
    exact ih _ (keysNodup_insertIfAbsent m x w h)

theorem relatedChunksMap_keysNodup (st : SymbolTable) (cc : Chunk) :
    keysNodup (relatedChunksMap st cc) := by
  rw [relatedChunksMap_eq]
  exact keysNodup_insertFold _ _ _
    (keysNodup_bumpList _ _ (by simp [keysNodup]))

theorem lookupN_of_mem_nodup :
    ∀ (m : List (String × Nat)), keysNodup m →
      ∀ {k : String} {v : Nat}, (k, v) ∈ m → lookupN m k = some v := by
  intro m
  induction m with
  | nil => intro _ k v h; simp at h
  | cons p rest ih =>
    intro hnd k v hm
    obtain ⟨k', v'⟩ := p
    rcases List.mem_cons.1 hm with h | h
    · rw [Prod.ext_iff] at h
      obtain ⟨h1, h2⟩ := h
      simp only at h1 h2
      subst h1
      subst h2
      simp [lookupN]
    · have hk : k' ≠ k := by
        intro hh
        subst hh
        have hmem : k' ∈ rest.map Prod.fst :=
          List.mem_map.2 ⟨(k', v), h, rfl⟩
        exact (List.nodup_cons.1 hnd).1 hmem
      have hrest : keysNodup rest := (List.nodup_cons.1 hnd).2
      simp only [lookupN, beq_iff_eq, hk, if_false]
      exact ih hrest h

theorem chain'_of_chain'_mem {α : Type} {R S : α → α → Prop} :
    ∀ (l : List α), (∀ a ∈ l, ∀ b ∈ l, R a b → S a b) →
      List.Chain' R l → List.Chain' S l := by
  intro l
  induction l with
  | nil => intro _ _; exact List.chain'_nil
  | cons a t ih =>
    intro H hc
    match t with
    | [] => exact List.chain'_singleton a
    | b :: t' =>
      rw [List.chain'_cons] at hc ⊢
      refine ⟨H a (by simp) b (by simp) hc.1, ?_⟩
      exact ih (fun x hx y hy hR =>
        H x (List.mem_cons_of_mem _ hx) y (List.mem_cons_of_mem _ hy) hR)
        hc.2

/-! ### C4: shape of the relationship engine's output -/

/-- C4 (amended): every possible result of `FindRelatedChunks` holds at
most 10 chunk IDs, listed in non-increasing final strength, and each
candidate's final strength in the underlying map is the maximum over the
strengths proposed by the rules (with the same-package rule contributing
`RelationWeak` only to candidates no other rule proposed) — never an
additive combination.  The order among equal-strength candidates is not
fixed (see the counterexample). -/
theorem findRelatedChunks_spec (st : SymbolTable) (cc : Chunk)
    (out : List String) (h : FindRelatedChunksOut st cc out) :
    out.length ≤ maxRelations ∧
    List.Chain' (fun a b =>
      (lookupN (relatedChunksMap st cc) b).getD 0 ≤
        (lookupN (relatedChunksMap st cc) a).getD 0) out ∧
    (∀ id, lookupN (relatedChunksMap st cc) id =
      match propStrengths (bumpPairs st cc) id with
      | [] => if id ∈ rule6ids st cc then some RelationWeak else none
      | s :: ss => some (maxOf (s :: ss))) := by
  obtain ⟨pairs, hperm, hchain, hout⟩ := h
  refine ⟨?_, ?_, fun id => lookupN_relatedChunksMap st cc id⟩
  · subst hout
    simp only [List.length_map, List.length_take]
    exact min_le_left _ _
  · subst hout
    rw [List.chain'_map]
    have htake : List.Chain' (fun a b : String × Nat => b.2 ≤ a.2)
        (pairs.take maxRelations) :=
      hchain.prefix (List.take_prefix _ _)
    refine chain'_of_chain'_mem _ ?_ htake
    intro a ha b hb hR
    have ha' : a ∈ relatedChunksMap st cc :=
      hperm.subset (List.take_subset _ _ ha)
    have hb' : b ∈ relatedChunksMap st cc :=
      hperm.subset (List.take_subset _ _ hb)
    have la := lookupN_of_mem_nodup _ (relatedChunksMap_keysNodup st cc)
      (k := a.1) (v := a.2) ha'
    have lb := lookupN_of_mem_nodup _ (relatedChunksMap_keysNodup st cc)
      (k := b.1) (v := b.2) hb'
    rw [la, lb]
    simpa using hR

/-- The candidate table used to exhibit the tie nondeterminism: chunk
`A` lists symbol `s`, which chunks `B` and `C` both reference, so both
are strong candidates of equal strength. -/
def tieTable : SymbolTable :=
  { Definitions := [],
    References := [("s", [⟨"s", "B", "p/b.go", 1⟩, ⟨"s", "C", "p/c.go", 2⟩])],
    Chunks := [] }

def tieChunk : Chunk :=
  { ID := "A", FilePath := "p/a.go", StartLine := 1, EndLine := 1,
    Content := "", Language := "go", Symbols := ["s"] }

/-- C4 (counterexample): ties are **not** broken by a stable order — with
two equal-strength candidates both `["B", "C"]` and `["C", "B"]` are
possible results of `FindRelatedChunks` for the same completed symbol
table and target chunk, so the returned list is not deterministic. -/
theorem findRelatedChunks_tie_nondeterministic :
    FindRelatedChunksOut tieTable tieChunk ["B", "C"] ∧
    FindRelatedChunksOut tieTable tieChunk ["C", "B"] ∧
    (["B", "C"] : List String) ≠ ["C", "B"] := by
  have hmap : relatedChunksMap tieTable tieChunk =
      [("B", 10), ("C", 10)] := by decide
  refine ⟨⟨[("B", 10), ("C", 10)], ?_, ?_, ?_⟩,
    ⟨[("C", 10), ("B", 10)], ?_, ?_, ?_⟩, by decide⟩
  · rw [hmap]
  · exact List.chain'_cons.2 ⟨le_refl 10, List.chain'_singleton _⟩
  · decide
  · rw [hmap]
    exact List.Perm.swap _ _ _
  · exact List.chain'_cons.2 ⟨le_refl 10, List.chain'_singleton _⟩
  · decide

/-- Witness for C4's amended statement at the concrete tie table. -/
theorem findRelatedChunks_spec_witness :
    (["B", "C"] : List String).length ≤ maxRelations ∧
    List.Chain' (fun a b =>
      (lookupN (relatedChunksMap tieTable tieChunk) b).getD 0 ≤
        (lookupN (relatedChunksMap tieTable tieChunk) a).getD 0)
      ["B", "C"] ∧
    (∀ id, lookupN (relatedChunksMap tieTable tieChunk) id =
      match propStrengths (bumpPairs tieTable tieChunk) id with
      | [] => if id ∈ rule6ids tieTable tieChunk then some RelationWeak
        else none
      | s :: ss => some (maxOf (s :: ss))) :=
  findRelatedChunks_spec tieTable tieChunk ["B", "C"]
    ⟨[("B", 10), ("C", 10)],
      by rw [show relatedChunksMap tieTable tieChunk =
        [("B", 10), ("C", 10)] from by decide],
      List.chain'_cons.2 ⟨le_refl 10, List.chain'_singleton _⟩,
      by decide⟩

/-! ### C5: duality of rules 1 and 2 -/

theorem mapLookup_self_mem {m : List (String × List α)} {k : String}
    (h : mapLookup m k ≠ []) : (k, mapLookup m k) ∈ m := by
  induction m with
  | nil => exact absurd rfl h
  | cons p rest ih =>
    obtain ⟨k', vs⟩ := p
    by_cases hk : k' = k
    · subst hk
      simp only [mapLookup, beq_self_eq_true, if_true] at h ⊢
      exact List.mem_cons_self _ _
    · simp only [mapLookup, beq_iff_eq, hk, if_false] at h ⊢
      exact List.mem_cons_of_mem _ (ih h)

theorem rule1pairs_mem (st : SymbolTable) (cc : Chunk) {S : String}
    {r : SymbolReference} (hS : S ∈ cc.Symbols) (hr : r ∈ refsOf st S)
    (hne : r.ChunkID ≠ cc.ID) :
    (r.ChunkID, RelationStrong) ∈ rule1pairs st cc := by
  unfold rule1pairs
  refine List.mem_flatMap.2 ⟨S, hS, ?_⟩
  refine List.mem_filterMap.2 ⟨r, hr, ?_⟩
  rw [if_pos hne]

theorem rule2pairs_mem (st : SymbolTable) (cc : Chunk) {S : String}
    {d : SymbolDefinition} {r : SymbolReference}
    (hd : d ∈ defsOf st S) (hr : r ∈ refsOf st S)
    (hrc : r.ChunkID = cc.ID) (hne : d.ChunkID ≠ cc.ID) :
    (d.ChunkID, RelationStrong) ∈ rule2pairs st cc := by
  unfold rule2pairs
  have hnonempty : defsOf st S ≠ [] := by
    intro h
    rw [h] at hd
    exact absurd hd (List.not_mem_nil d)
  have hentry : (S, mapLookup st.Definitions S) ∈ st.Definitions :=
    mapLookup_self_mem hnonempty
  refine List.mem_flatMap.2 ⟨(S, mapLookup st.Definitions S), hentry, ?_⟩
  have hany : (refsOf st S).any (fun ref => ref.ChunkID == cc.ID) = true :=
    List.any_eq_true.2 ⟨r, hr, by simp [hrc]⟩
  simp only [hany, if_true]
  refine List.mem_filterMap.2 ⟨d, hd, ?_⟩
  rw [if_pos hne]

theorem mem_propStrengths {ps : List (String × Nat)} {id : String}
    {s : Nat} (h : (id, s) ∈ ps) : s ∈ propStrengths ps id := by
  unfold propStrengths
  exact List.mem_map.2 ⟨(id, s), List.mem_filter.2 ⟨h, by simp⟩, rfl⟩

theorem lookupN_isSome_of_mem_bumpPairs (st : SymbolTable) (cc : Chunk)
    {id : String} {s : Nat} (h : (id, s) ∈ bumpPairs st cc) :
    (lookupN (relatedChunksMap st cc) id).isSome = true := by
  rw [lookupN_relatedChunksMap]
  cases hp : propStrengths (bumpPairs st cc) id with
  | nil =>
    have := mem_propStrengths h
    rw [hp] at this
    exact absurd this (List.not_mem_nil s)
  | cons s' ss => simp

theorem mem_out_of_small (st : SymbolTable) (cc : Chunk)
    (out : List String) (id : String)
    (hsz : (relatedChunksMap st cc).length ≤ maxRelations)
    (hout : FindRelatedChunksOut st cc out)
    (hid : (lookupN (relatedChunksMap st cc) id).isSome = true) :
    id ∈ out := by
  obtain ⟨pairs, hperm, _, hres⟩ := hout
  subst hres
  have hlen : pairs.length ≤ maxRelations := by
    rw [hperm.length_eq]
    exact hsz
  rw [List.take_of_length_le hlen]
  have hkey : id ∈ (relatedChunksMap st cc).map Prod.fst := by
    by_contra hmem
    rw [← lookupN_eq_none_iff] at hmem
    rw [hmem] at hid
    simp at hid
  exact ((hperm.map Prod.fst).mem_iff).2 hkey

/-- C5 (amended): if chunk `A` lists and defines symbol `S` and chunk `B`
references `S`, then each is a (strong) candidate in the other's
relationship map; each also appears in the other's final related list
whenever that chunk's candidate map holds at most 10 entries — the
truncation to 10 can otherwise drop it (see the counterexample). -/
theorem relationDuality (st : SymbolTable) (A B : Chunk) (S : String)
    (hSA : S ∈ A.Symbols)
    (hdef : ∃ d ∈ defsOf st S, d.ChunkID = A.ID)
    (href : ∃ r ∈ refsOf st S, r.ChunkID = B.ID)
    (hne : A.ID ≠ B.ID) :
    (lookupN (relatedChunksMap st A) B.ID).isSome = true ∧
    (lookupN (relatedChunksMap st B) A.ID).isSome = true ∧
    ((relatedChunksMap st A).length ≤ maxRelations →
      ∀ out, FindRelatedChunksOut st A out → B.ID ∈ out) ∧
    ((relatedChunksMap st B).length ≤ maxRelations →
      ∀ out, FindRelatedChunksOut st B out → A.ID ∈ out) := by
  obtain ⟨d, hd, hdA⟩ := hdef
  obtain ⟨r, hr, hrB⟩ := href
  have h1 : (B.ID, RelationStrong) ∈ bumpPairs st A := by
    unfold bumpPairs
    refine List.mem_append.2 (Or.inl (List.mem_append.2 (Or.inl
      (List.mem_append.2 (Or.inl (List.mem_append.2 (Or.inl
        (List.mem_append.2 (Or.inl ?_)))))))))
    rw [← hrB]
    exact rule1pairs_mem st A hSA hr (by rw [hrB]; exact Ne.symm hne)
  have h2 : (A.ID, RelationStrong) ∈ bumpPairs st B := by
    unfold bumpPairs
    refine List.mem_append.2 (Or.inl (List.mem_append.2 (Or.inl
      (List.mem_append.2 (Or.inl (List.mem_append.2 (Or.inl
        (List.mem_append.2 (Or.inr ?_)))))))))
    rw [← hdA]
    exact rule2pairs_mem st B hd hr (by rw [hrB]) (by rw [hdA]; exact hne)
  refine ⟨lookupN_isSome_of_mem_bumpPairs st A h1,
    lookupN_isSome_of_mem_bumpPairs st B h2, ?_, ?_⟩
  · intro hsz out hout
    exact mem_out_of_small st A out B.ID hsz hout
      (lookupN_isSome_of_mem_bumpPairs st A h1)
  · intro hsz out hout
    exact mem_out_of_small st B out A.ID hsz hout
      (lookupN_isSome_of_mem_bumpPairs st B h2)

/-- Non-increasing chains are trivial when every strength is the same. -/
theorem chain'_of_const (v : Nat) (l : List (String × Nat))
    (h : ∀ p ∈ l, p.2 = v) :
    List.Chain' (fun a b : String × Nat => b.2 ≤ a.2) l := by
  induction l with
  | nil => exact List.chain'_nil
  | cons a t ih =>
    cases t with
    | nil => exact List.chain'_singleton a
    | cons b t' =>
      refine List.chain'_cons.2
        ⟨?_, ih (fun p hp => h p (List.mem_cons_of_mem a hp))⟩
      rw [h a (List.mem_cons_self a _),
        h b (List.mem_cons_of_mem a (List.mem_cons_self b _))]

/-- The table for the truncation counterexample: chunk `A` defines `s`
(referenced by chunk `B`) and also lists ten more symbols `t1`–`t10`,
each referenced by a distinct chunk `c1`–`c10`, so `A` has eleven
equal-strength candidates. -/
def dualTable : SymbolTable :=
  { Definitions := [("s", [⟨"s", "A", "p/a.go", 1, 1, "function"⟩])],
    References :=
      [("s", [⟨"s", "B", "p/b.go", 1⟩]),
       ("t1", [⟨"t1", "c1", "p/c1.go", 1⟩]),
       ("t2", [⟨"t2", "c2", "p/c2.go", 1⟩]),
       ("t3", [⟨"t3", "c3", "p/c3.go", 1⟩]),
       ("t4", [⟨"t4", "c4", "p/c4.go", 1⟩]),
       ("t5", [⟨"t5", "c5", "p/c5.go", 1⟩]),
       ("t6", [⟨"t6", "c6", "p/c6.go", 1⟩]),
       ("t7", [⟨"t7", "c7", "p/c7.go", 1⟩]),
       ("t8", [⟨"t8", "c8", "p/c8.go", 1⟩]),
       ("t9", [⟨"t9", "c9", "p/c9.go", 1⟩]),
       ("t10", [⟨"t10", "c10", "p/c10.go", 1⟩])],
    Chunks := [] }

def dualChunk : Chunk :=
  { ID := "A", FilePath := "p/a.go", StartLine := 1, EndLine := 1,
    Content := "", Language := "go",
    Symbols := ["s", "t1", "t2", "t3", "t4", "t5", "t6", "t7", "t8",
      "t9", "t10"] }

def dualB : Chunk :=
  { ID := "B", FilePath := "p/b.go", StartLine := 1, EndLine := 1,
    Content := "", Language := "go" }

/-- The other ten candidates, all at strength `RelationStrong`. -/
def dualTail : List (String × Nat) :=
  [("c1", 10), ("c2", 10), ("c3", 10), ("c4", 10), ("c5", 10),
   ("c6", 10), ("c7", 10), ("c8", 10), ("c9", 10), ("c10", 10)]

/-- C5 (counterexample): `A` defines `s` and `B` references `s`, yet an
admissible run of `FindRelatedChunks` on `A` returns a list without `B` —
the unstable sort may order `B` after the ten other strength-10
candidates and the truncation to `maxRelations` then drops it. -/
theorem relationDuality_counterexample :
    (∃ d ∈ defsOf dualTable "s", d.ChunkID = dualChunk.ID) ∧
    (∃ r ∈ refsOf dualTable "s", r.ChunkID = dualB.ID) ∧
    "s" ∈ dualChunk.Symbols ∧
    dualChunk.ID ≠ dualB.ID ∧
    FindRelatedChunksOut dualTable dualChunk
      ["c1", "c2", "c3", "c4", "c5", "c6", "c7", "c8", "c9", "c10"] ∧
    dualB.ID ∉
      (["c1", "c2", "c3", "c4", "c5", "c6", "c7", "c8", "c9", "c10"] :
        List String) := by
  refine ⟨by decide, by decide, by decide, by decide,
    ⟨dualTail ++ [("B", 10)], ?_, ?_, by decide⟩, by decide⟩
  · rw [show relatedChunksMap dualTable dualChunk =
      ("B", 10) :: dualTail from by decide]
    exact List.perm_append_comm
  · exact chain'_of_const 10 _ (by decide)

/-- Witness for C5's amended statement at the concrete duality table. -/
theorem relationDuality_witness :
    (lookupN (relatedChunksMap dualTable dualChunk) dualB.ID).isSome = true ∧
    (lookupN (relatedChunksMap dualTable dualB) dualChunk.ID).isSome = true ∧
    ((relatedChunksMap dualTable dualChunk).length ≤ maxRelations →
      ∀ out, FindRelatedChunksOut dualTable dualChunk out →
        dualB.ID ∈ out) ∧
    ((relatedChunksMap dualTable dualB).length ≤ maxRelations →
      ∀ out, FindRelatedChunksOut dualTable dualB out →
        dualChunk.ID ∈ out) :=
  relationDuality dualTable dualChunk dualB "s" (by decide) (by decide)
    (by decide) (by decide)

/-! ### C10: definition kinds across the chunkers -/

/-- The definition kinds that actually occur: `"function"` (shell and Go
functions), `"type"`/`"const"`/`"var"` (Go declarations), `"instruction"`
(Dockerfile), `"generic"` (fallback). -/
def allowedKinds : List String :=
  ["function", "type", "const", "var", "instruction", "generic"]

/-- Every definition stored in the table has an allowed kind. -/
def DefsKindsOK (st : SymbolTable) : Prop :=
  ∀ e ∈ st.Definitions, ∀ dd ∈ e.2, dd.type' ∈ allowedKinds

theorem mem_of_mem_mapAppend {α : Type} {m : List (String × List α)}
    {k : String} {v : α} {e : String × List α} {dd : α}
    (he : e ∈ mapAppend m k v) (hd : dd ∈ e.2) :
    (∃ e₀ ∈ m, dd ∈ e₀.2) ∨ dd = v := by
  induction m with
  | nil =>
    simp only [mapAppend, List.mem_singleton] at he
    subst he
    simp only [List.mem_singleton] at hd
    exact Or.inr hd
  | cons p rest ih =>
    obtain ⟨k', vs⟩ := p
    rw [show mapAppend ((k', vs) :: rest) k v =
      if k' == k then (k', vs ++ [v]) :: rest
      else (k', vs) :: mapAppend rest k v from rfl] at he
    by_cases hk : (k' == k) = true
    · rw [if_pos hk] at he
      rcases List.mem_cons.1 he with he1 | he1
      · subst he1
        simp only [List.mem_append, List.mem_singleton] at hd
        rcases hd with hd | hd
        · exact Or.inl ⟨(k', vs), List.mem_cons_self _ _, hd⟩
        · exact Or.inr hd
      · exact Or.inl ⟨e, List.mem_cons_of_mem _ he1, hd⟩
    · rw [if_neg hk] at he
      rcases List.mem_cons.1 he with he1 | he1
      · subst he1
        exact Or.inl ⟨(k', vs), List.mem_cons_self _ _, hd⟩
      · rcases ih he1 with ⟨e₀, he₀, hd₀⟩ | hv
        · exact Or.inl ⟨e₀, List.mem_cons_of_mem _ he₀, hd₀⟩
        · exact Or.inr hv

theorem DefsKindsOK_AddDefinition {st : SymbolTable} {name : String}
    {dd : SymbolDefinition} (h : DefsKindsOK st)
    (hk : dd.type' ∈ allowedKinds) :
    DefsKindsOK (st.AddDefinition name dd) := by
  intro e he d hd
  rcases mem_of_mem_mapAppend he hd with ⟨e₀, he₀, hd₀⟩ | hv
  · exact h e₀ he₀ d hd₀
  · subst hv
    exact hk

/-- `DefsKindsOK` only looks at the `Definitions` component. -/
theorem DefsKindsOK_of_eq {st st' : SymbolTable}
    (he : st'.Definitions = st.Definitions) (h : DefsKindsOK st) :
    DefsKindsOK st' := by
  intro e hm d hd
  rw [he] at hm
  exact h e hm d hd

/-- Registering a whole symbol list under one fixed (allowed) kind keeps
the invariant. -/
theorem DefsKindsOK_foldlAddK (cid fp : String) (s e : Nat)
    (kind : String) (hk : kind ∈ allowedKinds) :
    ∀ (syms : List String) (st : SymbolTable), DefsKindsOK st →
      DefsKindsOK (syms.foldl (fun acc symbol =>
        acc.AddDefinition symbol ⟨symbol, cid, fp, s, e, kind⟩) st) := by
  intro syms
  induction syms with
  | nil => intro st h; exact h
  | cons a t ih =>
    intro st h
    rw [List.foldl_cons]
    exact ih _ (DefsKindsOK_AddDefinition h hk)

theorem shellCreateChunk_kinds (d : List String → List String)
    (fp : String) (lines : List String) (s e : Nat) (st : SymbolTable)
    (h : DefsKindsOK st) :
    DefsKindsOK (shellCreateChunk d fp lines s e st).2 := by
  unfold shellCreateChunk
  exact DefsKindsOK_foldlAddK _ _ _ _ "function" (by decide) _ _ h

theorem dockerCreateChunk_kinds (d : List String → List String)
    (fp : String) (lines : List String) (s e : Nat) (st : SymbolTable)
    (h : DefsKindsOK st) :
    DefsKindsOK (dockerCreateChunk d fp lines s e st).2 := by
  unfold dockerCreateChunk
  exact DefsKindsOK_foldlAddK _ _ _ _ "instruction" (by decide) _ _ h

theorem shellChunkLoop_kinds (d : List String → List String)
    (options : ChunkingOptions) (filePath : String) :
    ∀ (rest : List String) i pending startLine inFunction
      (st : SymbolTable), DefsKindsOK st →
      DefsKindsOK (shellChunkLoop d options filePath rest i pending
        startLine inFunction st).2 := by
  intro rest
  induction rest with
  | nil =>
    intro i pending startLine inFunction st h
    by_cases hp : pending.length > 0
    · simp only [shellChunkLoop, if_pos hp]
      exact shellCreateChunk_kinds d filePath pending startLine i st h
    · simp only [shellChunkLoop, if_neg hp]
      exact h
  | cons line rest' ih =>
    intro i pending startLine inFunction st h
    rw [shellChunkLoop]
    by_cases hfb : (isFunctionStart (trimStr line) && !inFunction) = true
    · by_cases hp : pending.length > 0
      · by_cases hcl : (trimStr line == "\x7d" ||
            strStartsWith (trimStr line) "\x7d #") = true
        · simp only [hfb, hp, hcl]
          simp
          exact ih _ _ _ _ _ (shellCreateChunk_kinds _ _ _ _ _ _
            (shellCreateChunk_kinds _ _ _ _ _ _ h))
        · simp only [hfb, hp, hcl]
          simp
          exact ih _ _ _ _ _ (shellCreateChunk_kinds _ _ _ _ _ _ h)
      · have hp0 : pending.length = 0 := by omega
        by_cases hcl : (trimStr line == "\x7d" ||
            strStartsWith (trimStr line) "\x7d #") = true
        · simp only [hfb, hp0, hcl]
          simp
          exact ih _ _ _ _ _ (shellCreateChunk_kinds _ _ _ _ _ _ h)
        · simp only [hfb, hp0, hcl]
          simp
          exact ih _ _ _ _ _ h
    · by_cases hcl : (inFunction && (trimStr line == "\x7d" ||
          strStartsWith (trimStr line) "\x7d #")) = true
      · simp only [hfb, hcl]
        simp [hfb, hcl]
        exact ih _ _ _ _ _ (shellCreateChunk_kinds _ _ _ _ _ _ h)
      · by_cases hmx : (!inFunction &&
            decide ((pending ++ [line]).length ≥ options.MaxChunkSize)) =
            true
        · simp only [Bool.and_eq_true, Bool.not_eq_true',
            decide_eq_true_eq] at hmx
          obtain ⟨hm1, hm2⟩ := hmx
          simp only [List.length_append, List.length_cons,
            List.length_nil] at hm2
          have hfs : isFunctionStart (trimStr line) = false := by
            subst hm1
            simpa using hfb
          simp [hfs, hm1, hm2]
          exact ih _ _ _ _ _ (shellCreateChunk_kinds _ _ _ _ _ _ h)
        · have hcond : ¬(inFunction = false ∧
              options.MaxChunkSize ≤ pending.length + 1) := by
            intro hc
            apply hmx
            simp [hc.1, hc.2]
          simp [hfb, hcl]
          rw [if_neg hcond]
          exact ih _ _ _ _ _ h

theorem dockerChunkLoop_kinds (d : List String → List String)
    (options : ChunkingOptions) (filePath : String) :
    ∀ (rest : List String) i pending startLine (st : SymbolTable),
      DefsKindsOK st →
      DefsKindsOK (dockerChunkLoop d options filePath rest i pending
        startLine st).2 := by
  intro rest
  induction rest with
  | nil =>
    intro i pending startLine st h
    by_cases hp : pending.length > 0
    · simp only [dockerChunkLoop, if_pos hp]
      exact dockerCreateChunk_kinds _ _ _ _ _ _ h
    · simp only [dockerChunkLoop, if_neg hp]
      exact h
  | cons line rest' ih =>
    intro i pending startLine st h
    rw [dockerChunkLoop]
    by_cases hsk : (pending.length == 0 && (trimStr line == "" ||
        strStartsWith (trimStr line) "#")) = true
    · simp only [hsk, if_true]
      exact ih _ _ _ _ h
    · by_cases hfbd : (isChunkBoundary (trimStr line) &&
          decide (pending.length > 0)) = true
      · by_cases hmx : options.MaxChunkSize ≤ 1
        · simp [hsk, hfbd, hmx]
          exact ih _ _ _ _ (dockerCreateChunk_kinds _ _ _ _ _ _
            (dockerCreateChunk_kinds _ _ _ _ _ _ h))
        · simp [hsk, hfbd, hmx]
          exact ih _ _ _ _ (dockerCreateChunk_kinds _ _ _ _ _ _ h)
      · by_cases hmx : options.MaxChunkSize ≤ pending.length + 1
        · simp [hsk, hfbd, hmx]
          exact ih _ _ _ _ (dockerCreateChunk_kinds _ _ _ _ _ _ h)
        · simp [hsk, hfbd, hmx]
          exact ih _ _ _ _ h

theorem genericChunkLoop_kinds (d : List String → List String)
    (filePath language : String) (maxS : Nat) :
    ∀ bound (lines : List String) i (st : SymbolTable),
      lines.length ≤ bound → DefsKindsOK st →
      DefsKindsOK (genericChunkLoop d filePath language maxS
        lines i st).2 := by
  intro bound
  induction bound with
  | zero =>
    intro lines i st hn h
    have : lines = [] := by
      cases lines with
      | nil => rfl
      | cons l ls => simp at hn
    subst this
    simp only [genericChunkLoop]
    exact h
  | succ b ih =>
    intro lines i st hn h
    match lines with
    | [] =>
      simp only [genericChunkLoop]
      exact h
    | l :: ls =>
      rw [genericChunkLoop]
      refine ih (ls.drop (maxS - 1)) (i + maxS) _ (by
        simp only [List.length_drop, List.length_cons] at hn ⊢
        omega) ?_
      exact DefsKindsOK_foldlAddK _ _ _ _ "generic" (by decide) _ _ h

theorem processFuncDecl_kinds (decl : GoFuncDecl)
    (fp content : String) (imports : List String) (st : SymbolTable)
    (h : DefsKindsOK st) :
    DefsKindsOK (processFuncDecl decl fp content imports st).2 := by
  unfold processFuncDecl
  cases hr : decl.Recv with
  | none =>
    simp only [hr]
    exact DefsKindsOK_AddDefinition h
      (show "function" ∈ allowedKinds by decide)
  | some receiver =>
    simp only [hr]
    by_cases hrt : receiverBase receiver ≠ ""
    · rw [if_pos hrt]
      exact DefsKindsOK_of_eq rfl (DefsKindsOK_AddDefinition h
        (show "function" ∈ allowedKinds by decide))
    · rw [if_neg hrt]
      exact DefsKindsOK_AddDefinition h
        (show "function" ∈ allowedKinds by decide)

theorem processGenDecl_kinds (decl : GoGenDecl)
    (fp content : String) (imports : List String) (st : SymbolTable)
    (h : DefsKindsOK st) :
    DefsKindsOK (processGenDecl decl fp content imports st).2 := by
  unfold processGenDecl
  cases htok : decl.Tok with
  | IMPORT =>
    simp [genDeclSymbols, htok]
    exact h
  | TYPE =>
    simp only [genDeclSymbols, htok]
    split
    · exact h
    · exact DefsKindsOK_foldlAddK _ _ _ _ "type" (by decide) _ _ h
  | CONST =>
    simp only [genDeclSymbols, htok]
    split
    · exact h
    · exact DefsKindsOK_foldlAddK _ _ _ _ "const" (by decide) _ _ h
  | VAR =>
    simp only [genDeclSymbols, htok]
    split
    · exact h
    · exact DefsKindsOK_foldlAddK _ _ _ _ "var" (by decide) _ _ h

theorem processDecls_kinds (file : GoFile) (fp content : String)
    (imports : List String) :
    ∀ (decls : List GoDecl) (st : SymbolTable), DefsKindsOK st →
      DefsKindsOK (processDecls file fp content imports decls st).2 := by
  intro decls
  induction decls with
  | nil => intro st h; exact h
  | cons dcl rest ih =>
    intro st h
    cases dcl with
    | funcDecl fd =>
      rw [processDecls]
      exact ih _ (processFuncDecl_kinds fd fp content imports st h)
    | genDecl gd =>
      rw [processDecls]
      by_cases htok : (gd.Tok == .TYPE || gd.Tok == .CONST ||
          gd.Tok == .VAR) = true
      · rw [if_pos htok]
        exact ih _ (processGenDecl_kinds gd fp content imports st h)
      · rw [if_neg htok]
        exact ih _ h

/-- The reference visitor never touches `Definitions`. -/
theorem visitNode_Definitions (chunks : List Chunk) (pn : String)
    (acc : String × SymbolTable) (node : GoNode) :
    (visitNode chunks pn acc node).2.Definitions = acc.2.Definitions := by
  unfold visitNode
  cases node with
  | otherNode p => rfl
  | identNode name p =>
    by_cases h1 : (isBasicType name || isKeyword name) = true
    · simp only [h1, if_true]
    · simp only [h1]
      rw [if_neg (show ¬(false = true) by decide)]
      by_cases h2 : mapHasKey acc.2.Definitions name = true
      · simp only [h2, if_true]
        by_cases h3 : (match chunks.find? (fun ch =>
            decide (p.line ≥ ch.StartLine) &&
              decide (p.line ≤ ch.EndLine)) with
          | some ch => ch.ID
          | none => acc.1) ≠ ""
        · rw [if_pos h3]
          rfl
        · rw [if_neg h3]
      · simp only [h2]
        rw [if_neg (show ¬(false = true) by decide)]

theorem foldl_visitNode_Definitions (chunks : List Chunk) (pn : String) :
    ∀ (nodes : List GoNode) (acc : String × SymbolTable),
      ((nodes.foldl (visitNode chunks pn) acc).2).Definitions =
        acc.2.Definitions := by
  intro nodes
  induction nodes with
  | nil => intro acc; rfl
  | cons n t ih =>
    intro acc
    rw [List.foldl_cons, ih, visitNode_Definitions]

theorem collectReferences_Definitions (file : GoFile)
    (chunks : List Chunk) (st : SymbolTable) :
    (collectReferences file chunks st).Definitions = st.Definitions := by
  unfold collectReferences
  exact foldl_visitNode_Definitions chunks file.Name file.Nodes ("", st)

theorem flatMap_nil_of {α β : Type} (l : List α) (f : α → List β)
    (h : ∀ a ∈ l, f a = []) : l.flatMap f = [] := by
  induction l with
  | nil => rfl
  | cons a t ih =>
    rw [List.flatMap_cons, h a (List.mem_cons_self a t), List.nil_append]
    exact ih (fun a' ha' => h a' (List.mem_cons_of_mem a ha'))

/-- With no `"interface"`-kind definition anywhere, rule 4 contributes
nothing. -/
theorem rule4pairs_eq_nil (st : SymbolTable) (cc : Chunk)
    (h : ∀ e ∈ st.Definitions, ∀ dd ∈ e.2, dd.type' ≠ "interface") :
    rule4pairs st cc = [] := by
  unfold rule4pairs
  apply flatMap_nil_of
  intro symbol hsym
  apply flatMap_nil_of
  intro dd hdd
  have hne : defsOf st symbol ≠ [] := by
    intro hcontra
    rw [hcontra] at hdd
    exact absurd hdd (List.not_mem_nil dd)
  have hmem := mapLookup_self_mem hne
  have hni : dd.type' ≠ "interface" :=
    h (symbol, mapLookup st.Definitions symbol) hmem dd hdd
  have hb : (dd.type' == "interface") = false := by
    simp [hni]
  simp [hb]

theorem goChunk_kinds (parsed : Option GoFile) (fp content : String)
    (st : SymbolTable) (options : ChunkingOptions) (h : DefsKindsOK st) :
    ∀ cs st', goChunk parsed fp content st options = .ok (cs, st') →
      DefsKindsOK st' := by
  intro cs st' heq
  cases parsed with
  | none =>
    simp only [goChunk, fallbackChunking, Except.ok.injEq] at heq
    have h2 := congrArg Prod.snd heq
    dsimp at h2
    rw [← h2]
    exact h
  | some file =>
    simp only [goChunk, Except.ok.injEq] at heq
    have h2 := congrArg Prod.snd heq
    dsimp at h2
    rw [← h2]
    exact DefsKindsOK_of_eq (collectReferences_Definitions _ _ _)
      (processDecls_kinds file fp content (extractImports file)
        file.Decls st h)

/-- **C10.** Every `SymbolDefinition` any chunker adds to the symbol
table has kind (`Type` field) in `{"function", "type", "const", "var",
"instruction", "generic"}`: each of the four chunkers preserves
`DefsKindsOK`.  In particular no definition ever has kind
`"interface"`, so rule 4 of the relationship engine (which requires a
definition of kind `"interface"` in the target chunk) never contributes
a candidate. -/
theorem chunkerDefinitionKinds (d : List String → List String)
    (filePath content : String) (st : SymbolTable)
    (options : ChunkingOptions) (parsed : Option GoFile)
    (h : DefsKindsOK st) :
    (∀ cs st', shellChunk d filePath content st options = .ok (cs, st') →
      DefsKindsOK st') ∧
    (∀ cs st', dockerfileChunk d filePath content st options =
      .ok (cs, st') → DefsKindsOK st') ∧
    (∀ cs st', genericChunk d filePath content st options =
      .ok (cs, st') → DefsKindsOK st') ∧
    (∀ cs st', goChunk parsed filePath content st options =
      .ok (cs, st') → DefsKindsOK st') ∧
    (∀ st₂ : SymbolTable, DefsKindsOK st₂ →
      (∀ e ∈ st₂.Definitions, ∀ dd ∈ e.2, dd.type' ≠ "interface") ∧
      ∀ cc : Chunk, rule4pairs st₂ cc = []) := by
  refine ⟨?_, ?_, ?_, goChunk_kinds parsed filePath content st options h,
    ?_⟩
  · intro cs st' heq
    simp only [shellChunk, Except.ok.injEq] at heq
    have h2 := congrArg Prod.snd heq
    dsimp at h2
    rw [← h2]
    exact shellChunkLoop_kinds d options filePath _ _ _ _ _ _ h
  · intro cs st' heq
    simp only [dockerfileChunk, Except.ok.injEq] at heq
    have h2 := congrArg Prod.snd heq
    dsimp at h2
    rw [← h2]
    exact dockerChunkLoop_kinds d options filePath _ _ _ _ _ h
  · intro cs st' heq
    simp only [genericChunk, Except.ok.injEq] at heq
    have h2 := congrArg Prod.snd heq
    dsimp at h2
    rw [← h2]
    exact genericChunkLoop_kinds d filePath (genericLanguage filePath)
      options.MaxChunkSize (linesOf content).length (linesOf content) 0 st
      (le_refl _) h
  · intro st₂ h₂
    have hni : ∀ e ∈ st₂.Definitions, ∀ dd ∈ e.2,
        dd.type' ≠ "interface" := by
      intro e he dd hdd hint
      have hin := h₂ e he dd hdd
      rw [hint] at hin
      exact absurd hin (by decide)
    exact ⟨hni, fun cc => rule4pairs_eq_nil st₂ cc hni⟩

/-- Witness for C10 at a concrete empty table and options. -/
theorem chunkerDefinitionKinds_witness :
    (∀ cs st', shellChunk id "a.sh" "" NewSymbolTable ⟨1, 2⟩ =
      .ok (cs, st') → DefsKindsOK st') ∧
    (∀ cs st', dockerfileChunk id "a.sh" "" NewSymbolTable ⟨1, 2⟩ =
      .ok (cs, st') → DefsKindsOK st') ∧
    (∀ cs st', genericChunk id "a.sh" "" NewSymbolTable ⟨1, 2⟩ =
      .ok (cs, st') → DefsKindsOK st') ∧
    (∀ cs st', goChunk none "a.sh" "" NewSymbolTable ⟨1, 2⟩ =
      .ok (cs, st') → DefsKindsOK st') ∧
    (∀ st₂ : SymbolTable, DefsKindsOK st₂ →
      (∀ e ∈ st₂.Definitions, ∀ dd ∈ e.2, dd.type' ≠ "interface") ∧
      ∀ cc : Chunk, rule4pairs st₂ cc = []) :=
  chunkerDefinitionKinds id "a.sh" "" NewSymbolTable ⟨1, 2⟩ none
    (fun e he => absurd he (List.not_mem_nil e))
